import Mathlib

/-!
Verification development for the `google.adk.skills` subsystem: a shallow
embedding, in Lean 4, of the skill-name validator (`validator.py`), the
SKILL.md frontmatter parser (`file_loader.py`), the in-memory skill
repositories (`in_memory_client.py`, `skill_set.py`) and the bash-style
argument binder (`scripts.py`), together with theorems about them.

Python strings are modelled as Lean `String`/`List Char`.  Character-class
functions (`str.strip`, `str.lower`, `str.isalnum`) are modelled on their
ASCII fragment, and `unicodedata.normalize("NFKC", s)` is modelled as the
identity (NFKC fixes every ASCII string).  External libraries that the code
calls (PyYAML, argparse, shlex) are not part of the repository; they are
modelled by an explicit loader parameter (YAML) and by faithful functional
models of exactly the feature subset the code uses (argparse, shlex).
-/

namespace Adk

/-- Python `str.strip` whitespace set, ASCII fragment: space, tab, newline,
carriage return, vertical tab, form feed. -/
def isSpaceChar (c : Char) : Bool :=
  c.toNat = 32 || c.toNat = 9 || c.toNat = 10 || c.toNat = 13 ||
  c.toNat = 11 || c.toNat = 12

/-- Drop leading whitespace. -/
def dropLeading (l : List Char) : List Char := l.dropWhile isSpaceChar

/-- Drop trailing whitespace. -/
def dropTrailing (l : List Char) : List Char :=
  (l.reverse.dropWhile isSpaceChar).reverse

/-- Python `str.strip()` over a character list. -/
def pyStrip (l : List Char) : List Char := dropTrailing (dropLeading l)

/-- Python `str.strip()` over a `String`. -/
def pyStripStr (s : String) : String := String.mk (pyStrip s.data)

/-- ASCII uppercase test (`'A'..'Z'`). -/
def isUpperChar (c : Char) : Bool := 65 ≤ c.toNat && c.toNat ≤ 90

/-- Per-character model of Python `str.lower` on the ASCII fragment. -/
def pyLower (c : Char) : Char :=
  if 65 ≤ c.toNat && c.toNat ≤ 90 then Char.ofNat (c.toNat + 32) else c

/-- Per-character model of Python `str.isalnum` on the ASCII fragment:
letter or digit. -/
def isAlnumChar (c : Char) : Bool :=
  (65 ≤ c.toNat && c.toNat ≤ 90) || (97 ≤ c.toNat && c.toNat ≤ 122) ||
  (48 ≤ c.toNat && c.toNat ≤ 57)

/-- Python substring containment (`pat in l`). -/
def hasSubB (pat : List Char) : List Char → Bool
  | [] => pat.isEmpty
  | c :: t => pat.isPrefixOf (c :: t) || hasSubB pat t

/-- `pat` occurs contiguously inside `l`. -/
def occursIn (pat l : List Char) : Prop := ∃ u v, l = u ++ pat ++ v

/-- `validator.validate_name` (validator.py lines 26-78).  The
`unicodedata.normalize("NFKC", ...)` call is modelled as the identity and
`len`/`lower`/`isalnum` on the ASCII fragment, as stated at the top of the
file.  The `not isinstance(name, str)` disjunct of the first check is vacuous
for a string argument and is dropped.  The `pathlib.Path` directory argument
is modelled by its final component (`skill_dir.name`), the only part the
function reads; a `Path` object is always truthy, so `if skill_dir:` is the
`Option` match. -/
def validate_name (name : String) (skill_dir : Option String) : List String :=
  if (pyStrip name.data).isEmpty then ["Field 'name' must be a non-empty string"]
  else
    let nm := pyStrip name.data
    let nmStr := String.mk nm
    (if nm.length > 64 then
      ["Skill name '" ++ nmStr ++ "' exceeds 64 character limit (" ++
        toString nm.length ++ " chars)"]
     else []) ++
    (if nm ≠ nm.map pyLower then
      ["Skill name '" ++ nmStr ++ "' must be lowercase"] else []) ++
    (if nm.head? = some '-' ∨ nm.getLast? = some '-' then
      ["Skill name cannot start or end with a hyphen"] else []) ++
    (if hasSubB ['-', '-'] nm then
      ["Skill name cannot contain consecutive hyphens"] else []) ++
    (if ¬ nm.all (fun c => isAlnumChar c || c == '-') then
      ["Skill name '" ++ nmStr ++ "' contains invalid characters. " ++
        "Only letters, digits, and hyphens are allowed."]
     else []) ++
    (match skill_dir with
     | none => []
     | some d =>
       if d ≠ nmStr then
         ["Directory name '" ++ d ++ "' must match skill name '" ++ nmStr ++ "'"]
       else [])

/-- Python values as produced by `yaml.safe_load`: `None`, booleans, integers,
strings, lists and mappings (floats, dates and other YAML scalars are outside
the modelled fragment). -/
inductive Yaml where
  | null
  | bool (b : Bool)
  | int (n : Int)
  | str (s : String)
  | list (xs : List Yaml)
  | map (kvs : List (Yaml × Yaml))

/-- Python `repr` on the modelled values, ASCII fragment (escaping inside
string `repr` is not modelled: a string is wrapped in single quotes). -/
def pyRepr : Yaml → String
  | .null => "None"
  | .bool true => "True"
  | .bool false => "False"
  | .int n => toString n
  | .str s => "'" ++ s ++ "'"
  | .list xs =>
    "[" ++ String.intercalate ", " (xs.attach.map fun x => pyRepr x.1) ++ "]"
  | .map kvs =>
    "\x7b" ++ String.intercalate ", "
      (kvs.attach.map fun kv => pyRepr kv.1.1 ++ ": " ++ pyRepr kv.1.2) ++ "\x7d"
decreasing_by
  · have := List.sizeOf_lt_of_mem x.2
    simp only [Yaml.list.sizeOf_spec]
    omega
  · have h1 := List.sizeOf_lt_of_mem kv.2
    have h2 : sizeOf kv.1.1 < sizeOf kv.1 := by
      obtain ⟨a, b⟩ := kv.1
      simp only [Prod.mk.sizeOf_spec]
      omega
    simp only [Yaml.map.sizeOf_spec]
    omega
  · have h1 := List.sizeOf_lt_of_mem kv.2
    have h2 : sizeOf kv.1.2 < sizeOf kv.1 := by
      obtain ⟨a, b⟩ := kv.1
      simp only [Prod.mk.sizeOf_spec]
      omega
    simp only [Yaml.map.sizeOf_spec]
    omega

/-- Python `str` on the modelled values: a string prints bare, everything else
as its `repr`. -/
def pyStr : Yaml → String
  | .str s => s
  | v => pyRepr v

/-- The `"---"` frontmatter delimiter of `file_loader.parse_skill_md`. -/
def delim : List Char := ['-', '-', '-']

/-- The leftmost occurrence of `sep` in `l`: `some (pre, post)` with
`l = pre ++ sep ++ post` and `pre` shortest, `none` when `sep` does not occur.
One step of Python `str.split`. -/
def findSep (sep : List Char) : List Char → Option (List Char × List Char)
  | [] => none
  | c :: rest =>
    if sep.isPrefixOf (c :: rest) then some ([], (c :: rest).drop sep.length)
    else
      match findSep sep rest with
      | none => none
      | some (pre, post) => some (c :: pre, post)

/-- Python `str.split("---", maxsplit)` over a character list. -/
def pySplit3 (m : Nat) (l : List Char) : List (List Char) :=
  match m with
  | 0 => [l]
  | m + 1 =>
    match findSep delim l with
    | none => [l]
    | some (pre, post) => pre :: pySplit3 m post

/-- The delimiter handling of `file_loader.parse_skill_md` (lines 146-154):
the input must start with `---`; `split("---", 2)` must produce at least three
parts; part 1 is the frontmatter block, part 2 stripped is the body. -/
def splitSkillMd (s : String) : Except String (List Char × List Char) :=
  if delim.isPrefixOf s.data then
    match pySplit3 2 s.data with
    | _ :: p1 :: p2 :: _ => .ok (p1, pyStrip p2)
    | _ => .error "SKILL.md frontmatter not properly closed with ---"
  else .error "SKILL.md must start with YAML frontmatter (---)"

/-- `models.Frontmatter`: the optional fields keep the parsed YAML value
(Python dataclasses do not coerce), `metadata` is the stringified mapping. -/
structure Frontmatter where
  name : String
  description : String
  license : Option Yaml := none
  compatibility : Option Yaml := none
  allowed_tools : Option Yaml := none
  metadata : List (String × String) := []

/-- Python `key in dict` / `dict[key]` for a YAML mapping and a string key:
a mapping key equals a Python string iff it is that string. -/
def lookupKey (m : List (Yaml × Yaml)) (k : String) : Option Yaml :=
  match m.find? (fun kv => match kv.1 with | .str t => t == k | _ => false) with
  | some kv => some kv.2
  | none => none

/-- Python `dict` assignment `d[k] = v`: update in place if the key is
present, append otherwise. -/
def dset {α : Type} (d : List (String × α)) (k : String) (v : α) :
    List (String × α) :=
  if d.any (fun kv => kv.1 == k) then
    d.map (fun kv => if kv.1 == k then (k, v) else kv)
  else d ++ [(k, v)]

/-- Python `dict` lookup `d.get(k)`. -/
def dlookup {α : Type} (d : List (String × α)) (k : String) : Option α :=
  match d.find? (fun kv => kv.1 == k) with
  | some kv => some kv.2
  | none => none

/-- The dict comprehension of `parse_skill_md` line 186:
`{str(k): str(v) for k, v in metadata["metadata"].items()}`. -/
def stringifyMeta (mm : List (Yaml × Yaml)) : List (String × String) :=
  mm.foldl (fun acc kv => dset acc (pyStr kv.1) (pyStr kv.2)) []

/-- `file_loader.parse_skill_md` (lines 131-195).  `yaml.safe_load` is an
external library; it enters as the explicit `yamlLoad` parameter (an
exception becomes `.error`, wrapped exactly as the code wraps
`yaml.YAMLError`).  Everything else follows the source line by line. -/
def parse_skill_md (yamlLoad : String → Except String Yaml) (s : String) :
    Except String (Frontmatter × String) :=
  match splitSkillMd s with
  | .error e => .error e
  | .ok (fmChars, bodyChars) =>
    match yamlLoad (String.mk fmChars) with
    | .error e => .error ("Invalid YAML in frontmatter: " ++ e)
    | .ok (.map m) =>
      match lookupKey m "name" with
      | none => .error "Missing required field in frontmatter: name"
      | some nameV =>
        match lookupKey m "description" with
        | none => .error "Missing required field in frontmatter: description"
        | some descV =>
          match nameV with
          | .str nm =>
            if (pyStrip nm.data).isEmpty then
              .error "Field 'name' must be a non-empty string"
            else
              match descV with
              | .str ds =>
                if (pyStrip ds.data).isEmpty then
                  .error "Field 'description' must be a non-empty string"
                else
                  .ok (⟨String.mk (pyStrip nm.data), String.mk (pyStrip ds.data),
                        lookupKey m "license", lookupKey m "compatibility",
                        lookupKey m "allowed-tools",
                        match lookupKey m "metadata" with
                        | some (.map mm) => stringifyMeta mm
                        | _ => []⟩,
                      String.mk bodyChars)
              | _ => .error "Field 'description' must be a non-empty string"
          | _ => .error "Field 'name' must be a non-empty string"
    | .ok _ => .error "SKILL.md frontmatter must be a YAML mapping"

/-- A loader standing for PyYAML on the frontmatter block
`"\nname: a\ndescription: b\n"` (what `yaml.safe_load` returns there). -/
def ylDemo : String → Except String Yaml :=
  fun _ => .ok (.map [(.str "name", .str "a"), (.str "description", .str "b")])

/-- A loader standing for PyYAML on a block that parses to an empty mapping. -/
def ylEmptyMap : String → Except String Yaml := fun _ => .ok (.map [])

/-- A loader standing for PyYAML on a block with only a `name` key. -/
def ylNameOnly : String → Except String Yaml :=
  fun _ => .ok (.map [(.str "name", .str "a")])

/-- A loader standing for PyYAML on a block with a nested `metadata` mapping. -/
def ylMeta : String → Except String Yaml :=
  fun _ => .ok (.map
    [(.str "name", .str "a"), (.str "description", .str "b"),
      (.str "metadata", .map [(.str "k", .str "v"), (.str "j", .str "w")])])

/-- A loader standing for PyYAML on a block whose `metadata` value is a plain
scalar, not a mapping. -/
def ylMetaScalar : String → Except String Yaml :=
  fun _ => .ok (.map
    [(.str "name", .str "a"), (.str "description", .str "b"),
      (.str "metadata", .str "oops")])

/-- `models.Resources`: the three path-to-content mappings. -/
structure Resources where
  references : List (String × String) := []
  assets : List (String × String) := []
  scripts : List (String × String) := []

/-- `models.Skill`: frontmatter, instruction body, resources. -/
structure Skill where
  frontmatter : Frontmatter
  instructions : String
  resources : Resources := {}

/-- The `Skill.name` read-through property. -/
def Skill.name (s : Skill) : String := s.frontmatter.name

/-- The `Skill.description` read-through property. -/
def Skill.description (s : Skill) : String := s.frontmatter.description

/-- `InMemoryClient.create` (in_memory_client.py lines 23-27): the state
`self._skills` is passed explicitly; `self._skills[skill.name] = skill`,
then the skill is returned. -/
def inMemoryCreate (st : List (String × Skill)) (sk : Skill) :
    List (String × Skill) × Skill := (dset st sk.name sk, sk)

/-- `InMemoryClient.retrieve` (lines 44-49): `ValueError` for a missing id,
the stored skill otherwise. -/
def inMemoryRetrieve (st : List (String × Skill)) (skill_id : String) :
    Except String Skill :=
  match dlookup st skill_id with
  | none => .error ("Skill '" ++ skill_id ++ "' not found")
  | some sk => .ok sk

/-- `skill_set.Skills.create` (skill_set.py lines 37-41): textually the same
body as `InMemoryClient.create`, embedded separately. -/
def skillsCreate (st : List (String × Skill)) (sk : Skill) :
    List (String × Skill) × Skill := (dset st sk.name sk, sk)

/-- `skill_set.Skills.retrieve` (lines 58-63). -/
def skillsRetrieve (st : List (String × Skill)) (skill_id : String) :
    Except String Skill :=
  match dlookup st skill_id with
  | none => .error ("Skill '" ++ skill_id ++ "' not found")
  | some sk => .ok sk

/-- Python runtime values flowing through the argument binder.  `sentinel`
stands for `inspect.Parameter.empty`, the no-default marker (argparse stores
it in the namespace like any other default). -/
inductive PyVal where
  | none
  | bool (b : Bool)
  | int (n : Int)
  | str (s : String)
  | list (xs : List PyVal)
  | sentinel
deriving Repr

/-- The type annotations the binder distinguishes: `int`, `str`, `bool`,
`NoneType`, `list`/`List`/`Sequence` (with an optional element type), and
`Union`/`Optional`. -/
inductive PyType where
  | tInt
  | tStr
  | tBool
  | tNone
  | tList (elem : Option PyType)
  | tUnion (args : List PyType)
deriving Repr

/-- Is the type `NoneType` (`arg is types.NoneType`)? -/
def isNoneTy : PyType → Bool
  | .tNone => true
  | _ => false

mutual

/-- `_unwrap_type` (scripts.py lines 24-34): a `Union` is unwrapped to its
first non-`None` member, recursively (the first element of the filtered list
is the first non-`None` member, found by `unwrapScan`); a union of only
`None` — and any non-union — is returned unchanged. -/
def unwrapType : PyType → PyType
  | .tUnion args =>
    match unwrapScan args with
    | some r => r
    | Option.none => .tUnion args
  | t => t

/-- Scan for the first non-`None` union member and unwrap it. -/
def unwrapScan : List PyType → Option PyType
  | [] => Option.none
  | a :: rest => if isNoneTy a then unwrapScan rest else some (unwrapType a)

end

/-- `_bool_type` (scripts.py lines 13-21) on a string token. -/
def bool_type (s : String) : Except String PyVal :=
  let lowered := String.mk (s.data.map pyLower)
  if lowered = "yes" ∨ lowered = "true" ∨ lowered = "t" ∨ lowered = "y" ∨
      lowered = "1" then .ok (.bool true)
  else if lowered = "no" ∨ lowered = "false" ∨ lowered = "f" ∨ lowered = "n" ∨
      lowered = "0" then .ok (.bool false)
  else .error "Boolean value expected."

/-- Decimal digit run to a number. -/
def digitsToNat (l : List Char) : Option Nat :=
  if l.isEmpty then none
  else if l.all Char.isDigit then
    some (l.foldl (fun a c => a * 10 + (c.toNat - 48)) 0)
  else none

/-- Python `int(str)`, ASCII fragment: surrounding whitespace, an optional
sign, then decimal digits (digit-separating underscores are not modelled). -/
def pyInt (s : String) : Option Int :=
  match pyStrip s.data with
  | '+' :: ds => (digitsToNat ds).map Int.ofNat
  | '-' :: ds => (digitsToNat ds).map (fun n => -(n : Int))
  | ds => (digitsToNat ds).map Int.ofNat

/-- Applying an argparse `type=` converter (as `to_function_input` passes
them: `int`, `str`, `_bool_type`, or a stray non-callable annotation, which
raises). `list` applied to a string iterates its characters. -/
def applyType : PyType → String → Except String PyVal
  | .tInt, s =>
    match pyInt s with
    | some n => .ok (.int n)
    | none => .error ("invalid int value: " ++ s)
  | .tStr, s => .ok (.str s)
  | .tBool, s => bool_type s
  | .tNone, s => .error ("invalid NoneType value: " ++ s)
  | .tList _, s => .ok (.list (s.data.map fun c => .str (String.mk [c])))
  | .tUnion _, s => .error ("invalid Union value: " ++ s)

/-- The kinds of `inspect.Parameter`. -/
inductive ParamKind where
  | posOnly
  | posOrKw
  | varPos
  | kwOnly
  | varKw
deriving BEq, DecidableEq, Repr

/-- One parameter of the wrapped callable, as `inspect.signature` reports it:
name, kind, annotation (`none` = unannotated) and default
(`.sentinel` = no default). -/
structure Param where
  name : String
  kind : ParamKind
  annot : Option PyType
  dflt : PyVal

/-- Python truthiness of the modelled values (`if param.default:`);
`inspect.Parameter.empty` is an ordinary object and is truthy. -/
def pyTruthy : PyVal → Bool
  | .sentinel => true
  | .none => false
  | .bool b => b
  | .int n => n != 0
  | .str s => !s.isEmpty
  | .list xs => !xs.isEmpty

/-- Is the default the `inspect.Parameter.empty` marker? -/
def isSentinel : PyVal → Bool
  | .sentinel => true
  | _ => false

/-- `type_hint == bool`. -/
def isBoolTy : PyType → Bool
  | .tBool => true
  | _ => false

/-- The element type when the (unwrapped) hint is a sequence type
(scripts.py lines 194-202): `some inner` triggers `nargs="*"`. -/
def listInner : PyType → Option PyType
  | .tList (some i) => some i
  | .tList none => some .tStr
  | _ => none

/-- `name.replace("_", "-")`. -/
def dashedName (s : String) : String :=
  String.mk (s.data.map fun c => if c = '_' then '-' else c)

/-- `key.replace("-", "_")`. -/
def underscoredName (s : String) : String :=
  String.mk (s.data.map fun c => if c = '-' then '_' else c)

/-- One option (flag) action of the generated parser: `store_true`,
`store_false` (the `--no-` negation), a typed single-value flag
(`nargs=None`), or a typed greedy flag (`nargs="*"`); the last two carry the
`default=param.default` value. -/
inductive OptAct where
  | storeT (flag dest : String)
  | storeF (flag dest : String)
  | single (flag dest : String) (ty : PyType) (dflt : PyVal)
  | star (flag dest : String) (ty : PyType) (dflt : PyVal)

/-- One positional action of the generated parser: `nargs=None` (exactly one
token) or `nargs="*"` (a greedy run). -/
inductive PosAct where
  | one (dest : String) (ty : PyType)
  | many (dest : String) (ty : PyType)

/-- `_add_flag_argument` (scripts.py lines 37-78). -/
def addFlagAction (cliName destName : String) (dflt : PyVal) (ty : PyType)
    (nargsStar : Bool) : OptAct :=
  if isBoolTy ty && !nargsStar then
    if pyTruthy dflt then .storeF ("--no-" ++ cliName) destName
    else .storeT ("--" ++ cliName) destName
  else
    if nargsStar then .star ("--" ++ cliName) destName ty dflt
    else .single ("--" ++ cliName) destName ty dflt

/-- Type-hint resolution of `to_function_input` (lines 187-202): unannotated
defaults to `str`, `Optional`/`Union` unwrapped, sequence hints switch to
`nargs="*"` with the element type as converter. -/
def resolvedType (p : Param) : PyType × Bool :=
  let t0 := match p.annot with
    | Option.none => PyType.tStr
    | some t => t
  let t1 := unwrapType t0
  match listInner t1 with
  | some inner => (inner, true)
  | Option.none => (t1, false)

/-- The parser action generated for one parameter (lines 204-234): a
required positional-eligible parameter becomes a positional action, one with
a default becomes a flag, a keyword-only parameter becomes a flag, `*args`
becomes a greedy positional, `**kwargs` adds no action. -/
def paramAction (p : Param) : Option (OptAct ⊕ PosAct) :=
  let (ty, nargsStar) := resolvedType p
  let cliName := dashedName p.name
  match p.kind with
  | .posOnly | .posOrKw =>
    if isSentinel p.dflt then
      some (.inr (if nargsStar then .many p.name ty else .one p.name ty))
    else some (.inl (addFlagAction cliName p.name p.dflt ty nargsStar))
  | .kwOnly => some (.inl (addFlagAction cliName p.name p.dflt ty nargsStar))
  | .varPos => some (.inr (.many p.name ty))
  | .varKw => Option.none

/-- The flag string of an option action. -/
def actFlag : OptAct → String
  | .storeT f _ => f
  | .storeF f _ => f
  | .single f _ _ _ => f
  | .star f _ _ _ => f

/-- The namespace destination of an option action. -/
def actDest : OptAct → String
  | .storeT _ d => d
  | .storeF _ d => d
  | .single _ d _ _ => d
  | .star _ d _ _ => d

/-- The namespace default of an option action (argparse defaults `store_true`
to `False` and `store_false` to `True`). -/
def actDefault : OptAct → PyVal
  | .storeT _ _ => .bool false
  | .storeF _ _ => .bool true
  | .single _ _ _ d => d
  | .star _ _ _ d => d

/-- The namespace destination of a positional action. -/
def posDest : PosAct → String
  | .one d _ => d
  | .many d _ => d

/-- The generated parser: option actions, positional actions, the initial
namespace (argparse sets every action's default up front; a positional's
default is `None`), and whether the callable has `**kwargs`. -/
structure ParserSpec where
  opts : List OptAct
  poss : List PosAct
  ns0 : List (String × PyVal)
  hasVarKw : Bool

/-- The parser `to_function_input` builds for a signature (lines 177-234):
the conventional `self` receiver is skipped. -/
def buildActions (sig : List Param) : ParserSpec :=
  let params := sig.filter (fun p => p.name ≠ "self")
  let acts := params.filterMap paramAction
  { opts := acts.filterMap (fun a => match a with
      | .inl o => some o
      | .inr _ => Option.none)
    poss := acts.filterMap (fun a => match a with
      | .inr q => some q
      | .inl _ => Option.none)
    ns0 := acts.foldl (fun d a => match a with
      | .inl o => dset d (actDest o) (actDefault o)
      | .inr q => dset d (posDest q) PyVal.none) []
    hasVarKw := params.any (fun p => p.kind == ParamKind.varKw) }

/-- argparse's negative-number test (`^-\d+$|^-\d*\.\d+$`): the generated
parsers never define number-like options, so such a token is positional. -/
def isNegNumTok (s : String) : Bool :=
  match s.data with
  | '-' :: rest =>
    let frac := rest.dropWhile Char.isDigit
    (match frac with
     | [] => !rest.isEmpty
     | '.' :: ds => !ds.isEmpty && ds.all Char.isDigit
     | _ => false)
  | _ => false

/-- argparse's option-token test: starts with `-`, is not `-` itself, is not
a negative number, and contains no space. -/
def optionLike (t : String) : Bool :=
  match t.data with
  | '-' :: _ :: _ => !isNegNumTok t && !(t.data.any (fun ch => ch = ' '))
  | _ => false

/-- Split an option token at its first `=` (argparse `--flag=value`). -/
def splitEq (t : String) : String × Option String :=
  match findSep ['='] t.data with
  | some (pre, post) => (String.mk pre, some (String.mk post))
  | Option.none => (t, Option.none)

/-- Look an option token up among the declared flags (exact match; argparse
prefix abbreviation is not part of the modelled fragment). -/
def findOpt (opts : List OptAct) (flagStr : String) : Option OptAct :=
  opts.find? (fun o => actFlag o == flagStr)

/-- The parser loop's pending state: waiting for the one value of a
`nargs=None` flag, or collecting the greedy run of a `nargs="*"` action. -/
inductive PMode where
  | idle
  | await1 (dest : String) (ty : PyType)
  | collect (dest : String) (ty : PyType) (accRev : List PyVal)

/-- Close the pending state at an option token or at the end of input:
a pending single-value flag without its value is an argparse error; a
pending greedy collection stores what it gathered. -/
def flushMode : PMode → List (String × PyVal) → Except String (List (String × PyVal))
  | .idle, ns => .ok ns
  | .await1 d _, _ => .error ("argument " ++ d ++ ": expected one argument")
  | .collect d _ accRev, ns => .ok (dset ns d (.list accRev.reverse))

/-- End-of-input handling of the remaining positional actions: a pending
required positional is an argparse error; a `nargs="*"` positional that never
matched becomes the empty list. -/
def finishPos : List PosAct → List (String × PyVal) → Except String (List (String × PyVal))
  | [], ns => .ok ns
  | .one d _ :: _, _ => .error ("the following arguments are required: " ++ d)
  | .many d _ :: rest, ns => finishPos rest (dset ns d (.list []))

/-- The argparse parsing loop over the token list, for the action shapes the
generated parsers contain (see `buildActions`).  Option tokens match declared
flags (with `--flag=value` support) or join the leftovers; other tokens fill
the pending state or the next positional action; a greedy action consumes the
run of tokens up to the next option token.  Unrecognized option tokens and
positional tokens with no positional action left are appended to the
leftover list in encounter order, as `parse_known_args` keeps them. -/
def ppRun (opts : List OptAct) :
    PMode → List PosAct → List (String × PyVal) → List String → List String →
    Except String (List (String × PyVal) × List String)
  | mode, poss, ns, extras, [] =>
    match flushMode mode ns with
    | .error e => .error e
    | .ok ns1 =>
      match finishPos poss ns1 with
      | .error e => .error e
      | .ok ns2 => .ok (ns2, extras)
  | mode, poss, ns, extras, tok :: rest =>
    if optionLike tok then
      match flushMode mode ns with
      | .error e => .error e
      | .ok ns1 =>
        match findOpt opts (splitEq tok).1 with
        | Option.none => ppRun opts .idle poss ns1 (extras ++ [tok]) rest
        | some (.storeT _ d) =>
          match (splitEq tok).2 with
          | Option.none => ppRun opts .idle poss (dset ns1 d (.bool true)) extras rest
          | some _ => .error ("argument " ++ d ++ ": ignored explicit argument")
        | some (.storeF _ d) =>
          match (splitEq tok).2 with
          | Option.none => ppRun opts .idle poss (dset ns1 d (.bool false)) extras rest
          | some _ => .error ("argument " ++ d ++ ": ignored explicit argument")
        | some (.single _ d ty _) =>
          match (splitEq tok).2 with
          | Option.none => ppRun opts (.await1 d ty) poss ns1 extras rest
          | some v =>
            match applyType ty v with
            | .error e => .error e
            | .ok pv => ppRun opts .idle poss (dset ns1 d pv) extras rest
        | some (.star _ d ty _) =>
          match (splitEq tok).2 with
          | Option.none => ppRun opts (.collect d ty []) poss ns1 extras rest
          | some v =>
            match applyType ty v with
            | .error e => .error e
            | .ok pv => ppRun opts .idle poss (dset ns1 d (.list [pv])) extras rest
    else
      match mode with
      | .await1 d ty =>
        match applyType ty tok with
        | .error e => .error e
        | .ok v => ppRun opts .idle poss (dset ns d v) extras rest
      | .collect d ty accRev =>
        match applyType ty tok with
        | .error e => .error e
        | .ok v => ppRun opts (.collect d ty (v :: accRev)) poss ns extras rest
      | .idle =>
        match poss with
        | [] => ppRun opts .idle [] ns (extras ++ [tok]) rest
        | .one d ty :: ps =>
          match applyType ty tok with
          | .error e => .error e
          | .ok v => ppRun opts .idle ps (dset ns d v) extras rest
        | .many d ty :: ps =>
          match applyType ty tok with
          | .error e => .error e
          | .ok v => ppRun opts (.collect d ty [v]) ps ns extras rest

/-- `parser.parse_known_args(args)`: the parsed namespace and the leftover
tokens. -/
def parse_known_args (spec : ParserSpec) (toks : List String) :
    Except String (List (String × PyVal) × List String) :=
  ppRun spec.opts .idle spec.poss spec.ns0 [] toks

/-- `parser.parse_args(args)`: like `parse_known_args`, then an error when
any token was left unrecognized. -/
def parse_args_strict (spec : ParserSpec) (toks : List String) :
    Except String (List (String × PyVal)) :=
  match parse_known_args spec toks with
  | .error e => .error e
  | .ok (ns, []) => .ok ns
  | .ok (_, e :: _) => .error ("unrecognized arguments: " ++ e)

/-- The value grouping of `_parse_unknown_args`: no value → `True`, one
value → that token, several → the token list. -/
def groupVal (values : List String) : PyVal :=
  match values with
  | [] => .bool true
  | [x] => .str x
  | xs => .list (xs.map .str)

/-- `tok.startswith("--")`. -/
def isDashDash (t : String) : Bool := ['-', '-'].isPrefixOf t.data

/-- `arg[2:]` for a `--key` token. -/
def dropTwo (t : String) : String := String.mk (t.data.drop 2)

/-- Single pass of `_parse_unknown_args` with the pending `--key` entry and
its collected values (reversed) as explicit state. -/
def puRun : Option (String × List String) → List (String × PyVal) → List String →
    List (String × PyVal)
  | Option.none, res, [] => res
  | some (k, accRev), res, [] => dset res k (groupVal accRev.reverse)
  | cur, res, t :: rest =>
    if isDashDash t then
      (match cur with
       | Option.none => puRun (some (underscoredName (dropTwo t), [])) res rest
       | some (k, accRev) =>
         puRun (some (underscoredName (dropTwo t), []))
           (dset res k (groupVal accRev.reverse)) rest)
    else
      match cur with
      | Option.none => puRun Option.none res rest
      | some (k, accRev) => puRun (some (k, t :: accRev)) res rest

/-- `_parse_unknown_args` (scripts.py lines 81-105), restructured from the
index-based while loop into one left-to-right pass: each `--key` token starts
a new entry (hyphens in the key become underscores), the following non-flag
tokens become its value group, and a token before any `--key` is skipped. -/
def parse_unknown_args (unknown : List String) : List (String × PyVal) :=
  puRun Option.none [] unknown

/-- The lexer state of `shlex.split`. -/
inductive ShState where
  | normal
  | single
  | double

/-- `shlex.split` whitespace. -/
def isShlexSpace (c : Char) : Bool :=
  c = ' ' ∨ c = '\t' ∨ c = '\r' ∨ c = '\n'

/-- POSIX `shlex.split` core loop: whitespace separates tokens; single quotes
group verbatim; double quotes group with `\"` and `\\` escapes (any other
backslash stays literal); a backslash outside quotes escapes the next
character.  Structured as recursion over the character list with the lexer
state and the reversed current token as accumulators. -/
def shlexRun (st : ShState) (cur : Option (List Char)) (acc : List String) :
    List Char → Except String (List String)
  | [] =>
    (match st with
     | .normal =>
       (match cur with
        | Option.none => .ok acc
        | some t => .ok (acc ++ [String.mk t.reverse]))
     | .single => .error "No closing quotation"
     | .double => .error "No closing quotation")
  | c :: rest =>
    match st with
    | .normal =>
      if c = '\\' then
        match rest with
        | [] => .error "No escaped character"
        | e :: rest2 => shlexRun .normal (some (e :: cur.getD [])) acc rest2
      else if isShlexSpace c then
        match cur with
        | Option.none => shlexRun .normal Option.none acc rest
        | some t => shlexRun .normal Option.none (acc ++ [String.mk t.reverse]) rest
      else if c = '\'' then shlexRun .single (some (cur.getD [])) acc rest
      else if c = '"' then shlexRun .double (some (cur.getD [])) acc rest
      else shlexRun .normal (some (c :: cur.getD [])) acc rest
    | .single =>
      if c = '\'' then shlexRun .normal (some (cur.getD [])) acc rest
      else shlexRun .single (some (c :: cur.getD [])) acc rest
    | .double =>
      if c = '"' then shlexRun .normal (some (cur.getD [])) acc rest
      else if c = '\\' then
        match rest with
        | [] => .error "No escaped character"
        | e :: rest2 =>
          if e = '"' ∨ e = '\\' then shlexRun .double (some (e :: cur.getD [])) acc rest2
          else shlexRun .double (some (e :: '\\' :: cur.getD [])) acc rest2
      else shlexRun .double (some (c :: cur.getD [])) acc rest

/-- `shlex.split(s)` (POSIX mode, comments off). -/
def pyShlexSplit (s : String) : Except String (List String) :=
  shlexRun .normal Option.none [] s.data

/-- Python `repr` of the binder's runtime values (ASCII fragment, string
escaping not modelled). -/
def pyValRepr : PyVal → String
  | .none => "None"
  | .bool true => "True"
  | .bool false => "False"
  | .int n => toString n
  | .str s => "'" ++ s ++ "'"
  | .sentinel => "<class inspect._empty>"
  | .list xs =>
    "[" ++ String.intercalate ", " (xs.attach.map fun x => pyValRepr x.1) ++ "]"
decreasing_by
  have := List.sizeOf_lt_of_mem x.2
  simp only [PyVal.list.sizeOf_spec]
  omega

/-- Python `str` of the binder's runtime values. -/
def pyValStr : PyVal → String
  | .str s => s
  | v => pyValRepr v

/-- The invocation handed to `to_function_input`: a single shell-style string
or a list whose elements are values or nested lists of values. -/
inductive ScriptArgs where
  | ofString (s : String)
  | ofList (items : List (PyVal ⊕ List PyVal))

/-- `_normalize_args` (scripts.py lines 108-121): a string is shell-split;
a list has nested lists flattened in place; every token is coerced with
`str`. -/
def normalize_args (args : ScriptArgs) : Except String (List String) :=
  match args with
  | .ofString s =>
    (match pyShlexSplit s with
     | .error e => .error e
     | .ok toks => .ok toks)
  | .ofList items =>
    .ok ((items.foldr (fun it acc => match it with
      | .inl v => v :: acc
      | .inr vs => vs ++ acc) []).map pyValStr)

/-- Python `dict.pop(k)`'s effect on the mapping (keys are unique). -/
def dpop {α : Type} (d : List (String × α)) (k : String) : List (String × α) :=
  match d with
  | [] => []
  | e :: rest => if e.1 == k then rest else e :: dpop rest k

/-- Python `dict.update`. -/
def dupdate {α : Type} (d e : List (String × α)) : List (String × α) :=
  e.foldl (fun acc kv => dset acc kv.1 kv.2) d

/-- The positional-reconstruction loop of `to_function_input`
(lines 249-267): walk the parameters in declaration order (skipping `self`),
pop each positional-eligible parameter's value from the parsed mapping into
the positional list, and extend with a `*args` value (`list.extend` iterates
lists and strings; anything else raises). -/
def redistLoop : List Param → List PyVal → List (String × PyVal) →
    Except String (List PyVal × List (String × PyVal))
  | [], pos, d => .ok (pos, d)
  | p :: rest, pos, d =>
    if p.name = "self" then redistLoop rest pos d
    else
      match p.kind with
      | .posOnly | .posOrKw =>
        (match dlookup d p.name with
         | Option.none => redistLoop rest pos d
         | some v => redistLoop rest (pos ++ [v]) (dpop d p.name))
      | .varPos =>
        (match dlookup d p.name with
         | Option.none => redistLoop rest pos d
         | some (.list xs) => redistLoop rest (pos ++ xs) (dpop d p.name)
         | some (.str s) =>
           redistLoop rest (pos ++ s.data.map (fun c => .str (String.mk [c])))
             (dpop d p.name)
         | some _ => .error "TypeError: argument after * must be an iterable")
      | .kwOnly | .varKw => redistLoop rest pos d

/-- Phase 1 of `inspect.Signature.bind`: assign the positional arguments to
the leading positional-eligible parameters in order; a `*args` parameter
absorbs the rest; too many positional arguments raise. -/
def bindPositional : List Param → List PyVal → Except String (List (String × PyVal))
  | _, [] => .ok []
  | [], _ :: _ => .error "too many positional arguments"
  | p :: ps, v :: vs =>
    match p.kind with
    | .posOnly | .posOrKw =>
      (match bindPositional ps vs with
       | .error e => .error e
       | .ok rest => .ok ((p.name, v) :: rest))
    | .varPos => .ok [(p.name, .list (v :: vs))]
    | .kwOnly | .varKw => .error "too many positional arguments"

/-- Does the signature declare a parameter of this kind? -/
def sigHasKind (sig : List Param) (kd : ParamKind) : Bool :=
  sig.any (fun p => p.kind == kd)

/-- Find a parameter by name. -/
def findParam (sig : List Param) (k : String) : Option Param :=
  sig.find? (fun p => p.name == k)

/-- Phase 2 of `inspect.Signature.bind`: match keyword arguments by name to
`POSITIONAL_OR_KEYWORD`/`KEYWORD_ONLY` parameters (a parameter already bound
positionally raises "multiple values"); names that match nothing bindable go
into the `**kwargs` bucket when the signature has one and raise otherwise. -/
def bindKeywords (sig : List Param) : List (String × PyVal) →
    List (String × PyVal) → List (String × PyVal) →
    Except String (List (String × PyVal) × List (String × PyVal))
  | [], bound, extra => .ok (bound, extra)
  | (k, v) :: rest, bound, extra =>
    match findParam sig k with
    | some p =>
      (match p.kind with
       | .posOrKw | .kwOnly =>
         if (dlookup bound k).isSome then
           .error ("multiple values for argument: " ++ k)
         else bindKeywords sig rest (bound ++ [(k, v)]) extra
       | .posOnly | .varPos | .varKw =>
         if sigHasKind sig .varKw then bindKeywords sig rest bound (extra ++ [(k, v)])
         else .error ("got an unexpected keyword argument: " ++ k))
    | Option.none =>
      if sigHasKind sig .varKw then bindKeywords sig rest bound (extra ++ [(k, v)])
      else .error ("got an unexpected keyword argument: " ++ k)

/-- Required-parameter check, `BoundArguments.apply_defaults`, and the
`.args`/`.kwargs` projections, in one walk over the parameters in
declaration order: every positional-eligible parameter contributes its bound
value or its default to the positional tuple (a missing required one
raises); `*args` contributes its elements; keyword-only parameters
contribute their bound value or default to the keyword mapping; `**kwargs`
expands its entries at its position. -/
def adLoop : List Param → List (String × PyVal) → List (String × PyVal) →
    Except String (List PyVal × List (String × PyVal))
  | [], _, _ => .ok ([], [])
  | p :: ps, bound, extra =>
    match p.kind with
    | .posOnly | .posOrKw =>
      (match (match dlookup bound p.name with
              | some v => some v
              | Option.none => if isSentinel p.dflt then Option.none else some p.dflt) with
       | Option.none => .error ("missing a required argument: " ++ p.name)
       | some v =>
         (match adLoop ps bound extra with
          | .error e => .error e
          | .ok (pos, kws) => .ok (v :: pos, kws)))
    | .varPos =>
      (match adLoop ps bound extra with
       | .error e => .error e
       | .ok (pos, kws) =>
         .ok ((match dlookup bound p.name with
               | some (.list ys) => ys
               | _ => []) ++ pos, kws))
    | .kwOnly =>
      (match (match dlookup bound p.name with
              | some v => some v
              | Option.none => if isSentinel p.dflt then Option.none else some p.dflt) with
       | Option.none => .error ("missing a required argument: " ++ p.name)
       | some v =>
         (match adLoop ps bound extra with
          | .error e => .error e
          | .ok (pos, kws) => .ok (pos, (p.name, v) :: kws)))
    | .varKw =>
      (match adLoop ps bound extra with
       | .error e => .error e
       | .ok (pos, kws) => .ok (pos, extra ++ kws))

/-- `sig.bind(*pos_args, **kw_args)` followed by `bound.apply_defaults()`
and the `(bound.args, bound.kwargs)` projections. -/
def sigBind (sig : List Param) (posArgs : List PyVal)
    (kwArgs : List (String × PyVal)) :
    Except String (List PyVal × List (String × PyVal)) :=
  match bindPositional sig posArgs with
  | .error e => .error e
  | .ok bound0 =>
    match bindKeywords sig kwArgs bound0 [] with
    | .error e => .error e
    | .ok (bound, extra) => adLoop sig bound extra

/-- `FunctionScript.to_function_input` (scripts.py lines 164-271): normalize
the invocation to string tokens, build the parser from the signature, parse
(strictly without `**kwargs`, permissively with it, merging the leftovers
parsed as `--key` groups), pop positional-eligible values back into
positional order, and bind against the full signature. -/
def to_function_input (sig : List Param) (args : ScriptArgs) :
    Except String (List PyVal × List (String × PyVal)) :=
  match normalize_args args with
  | .error e => .error e
  | .ok argStrs =>
    let spec := buildActions sig
    if spec.hasVarKw then
      match parse_known_args spec argStrs with
      | .error e => .error e
      | .ok (ns, unknown) =>
        (match redistLoop sig [] (dupdate ns (parse_unknown_args unknown)) with
         | .error e => .error e
         | .ok (posArgs, kwArgs) => sigBind sig posArgs kwArgs)
    else
      match parse_args_strict spec argStrs with
      | .error e => .error e
      | .ok ns =>
        (match redistLoop sig [] ns with
         | .error e => .error e
         | .ok (posArgs, kwArgs) => sigBind sig posArgs kwArgs)

/-- The signature `(x: int, verbose: bool = False)` of the docstring example
(scripts.py lines 139-148). -/
def sigXVerbose : List Param :=
  [⟨"x", .posOrKw, some .tInt, .sentinel⟩,
    ⟨"verbose", .posOrKw, some .tBool, .bool false⟩]

/-- The signature `(*, tag: str = None, **rest)`. -/
def sigTagRest : List Param :=
  [⟨"tag", .kwOnly, some .tStr, .none⟩,
    ⟨"rest", .varKw, Option.none, .sentinel⟩]

theorem isPrefixOf_iff_ex {l₁ l₂ : List Char} :
    l₁.isPrefixOf l₂ = true ↔ ∃ v, l₂ = l₁ ++ v := by
  induction l₁ generalizing l₂ with
  | nil => simp [List.isPrefixOf]
  | cons a t ih =>
    cases l₂ with
    | nil => simp [List.isPrefixOf]
    | cons b u =>
      simp only [List.isPrefixOf, Bool.and_eq_true, beq_iff_eq, ih]
      constructor
      · rintro ⟨rfl, v, rfl⟩; exact ⟨v, rfl⟩
      · rintro ⟨v, hv⟩
        rw [List.cons_append] at hv
        cases hv
        exact ⟨rfl, v, rfl⟩

theorem hasSubB_iff {pat l : List Char} : hasSubB pat l = true ↔ occursIn pat l := by
  induction l with
  | nil =>
    simp only [hasSubB, List.isEmpty_iff, occursIn]
    constructor
    · rintro rfl; exact ⟨[], [], rfl⟩
    · rintro ⟨u, v, h⟩
      rcases List.append_eq_nil.mp h.symm with ⟨h1, h2⟩
      exact (List.append_eq_nil.mp h1).2
  | cons c t ih =>
    simp only [hasSubB, Bool.or_eq_true, isPrefixOf_iff_ex, ih, occursIn]
    constructor
    · rintro (⟨v, hv⟩ | ⟨u, v, rfl⟩)
      · exact ⟨[], v, by simpa using hv⟩
      · exact ⟨c :: u, v, rfl⟩
    · rintro ⟨u, v, huv⟩
      cases u with
      | nil => exact Or.inl ⟨v, by simpa using huv⟩
      | cons a u' =>
        rw [List.cons_append, List.cons_append] at huv
        cases huv
        exact Or.inr ⟨u', v, rfl⟩

theorem mem_dropWhile_of_mem {p : Char → Bool} {c : Char} {l : List Char}
    (hc : c ∈ l) (hp : p c = false) : c ∈ l.dropWhile p := by
  induction l with
  | nil => cases hc
  | cons a t ih =>
    rw [List.dropWhile_cons]
    rcases List.mem_cons.mp hc with rfl | h
    · rw [hp]; simp
    · by_cases ha : p a = true
      · rw [if_pos ha]; exact ih h
      · rw [if_neg ha]; exact List.mem_cons_of_mem a h

theorem mem_pyStrip_of_mem {c : Char} {l : List Char}
    (hc : c ∈ l) (hp : isSpaceChar c = false) : c ∈ pyStrip l := by
  have h1 : c ∈ dropLeading l := mem_dropWhile_of_mem hc hp
  have h2 : c ∈ (dropLeading l).reverse := List.mem_reverse.mpr h1
  have h3 := mem_dropWhile_of_mem h2 hp
  exact List.mem_reverse.mpr h3

theorem occursIn_dropWhile {pat l : List Char} (h : occursIn pat l) (hne : pat ≠ [])
    (hp : ∀ c ∈ pat, isSpaceChar c = false) : occursIn pat (l.dropWhile isSpaceChar) := by
  induction l with
  | nil =>
    obtain ⟨u, v, huv⟩ := h
    rcases List.append_eq_nil.mp huv.symm with ⟨h1, _⟩
    exact absurd (List.append_eq_nil.mp h1).2 hne
  | cons a t ih =>
    rw [List.dropWhile_cons]
    by_cases ha : isSpaceChar a = true
    · rw [if_pos ha]
      obtain ⟨u, v, huv⟩ := h
      cases u with
      | nil =>
        simp only [List.nil_append] at huv
        cases pat with
        | nil => exact absurd rfl hne
        | cons pc pt =>
          rw [List.cons_append] at huv
          cases huv
          exact absurd (hp _ (List.mem_cons_self _ _)) (by rw [ha]; simp)
      | cons b u' =>
        rw [List.cons_append, List.cons_append] at huv
        cases huv
        exact ih ⟨u', v, rfl⟩
    · rw [if_neg ha]; exact h

theorem occursIn_reverse {pat l : List Char} (h : occursIn pat l) :
    occursIn pat.reverse l.reverse := by
  obtain ⟨u, v, rfl⟩ := h
  exact ⟨v.reverse, u.reverse, by simp⟩

theorem occursIn_pyStrip {pat l : List Char} (h : occursIn pat l) (hne : pat ≠ [])
    (hp : ∀ c ∈ pat, isSpaceChar c = false) : occursIn pat (pyStrip l) := by
  have h1 : occursIn pat (dropLeading l) := occursIn_dropWhile h hne hp
  have h2 : occursIn pat.reverse (dropLeading l).reverse := occursIn_reverse h1
  have h3 : occursIn pat.reverse ((dropLeading l).reverse.dropWhile isSpaceChar) := by
    refine occursIn_dropWhile h2 (by simpa using hne) ?_
    intro c hcm
    exact hp c (List.mem_reverse.mp hcm)
  have h4 := occursIn_reverse h3
  simpa [pyStrip, dropTrailing] using h4

theorem dropWhile_concat_of_neg {p : Char → Bool} {c : Char} (u : List Char)
    (hc : p c = false) : ∃ w, (u ++ [c]).dropWhile p = w ++ [c] := by
  induction u with
  | nil => exact ⟨[], by simp [List.dropWhile_cons, hc]⟩
  | cons a t ih =>
    rw [List.cons_append, List.dropWhile_cons]
    by_cases ha : p a = true
    · rw [if_pos ha]; exact ih
    · rw [if_neg ha]
      obtain ⟨w, _⟩ := ih
      exact ⟨a :: (t ++ [c]).dropLast, by simp⟩

theorem pyStrip_cons_head {c : Char} {l : List Char} (hc : isSpaceChar c = false) :
    ∃ t, pyStrip (c :: l) = c :: t := by
  have h1 : dropLeading (c :: l) = c :: l := by
    simp [dropLeading, List.dropWhile_cons, hc]
  rw [pyStrip, h1, dropTrailing, List.reverse_cons]
  obtain ⟨w, hw⟩ := dropWhile_concat_of_neg l.reverse hc
  rw [hw]
  exact ⟨w.reverse, by simp⟩

theorem pyStrip_concat_last {c : Char} {l : List Char} (hc : isSpaceChar c = false) :
    ∃ w, pyStrip (l ++ [c]) = w ++ [c] := by
  obtain ⟨m, hm⟩ := dropWhile_concat_of_neg (p := isSpaceChar) l hc
  rw [pyStrip, dropLeading, hm, dropTrailing]
  have h2 : (m ++ [c]).reverse = c :: m.reverse := by simp
  rw [h2, List.dropWhile_cons, hc]
  exact ⟨m, by simp⟩

theorem isUpperChar_pyLower (d : Char) : isUpperChar (pyLower d) = false := by
  rw [pyLower]
  by_cases h : (65 ≤ d.toNat && d.toNat ≤ 90) = true
  · rw [if_pos h]
    simp only [Bool.and_eq_true, decide_eq_true_eq] at h
    have hv : (d.toNat + 32).isValidChar := Or.inl (by omega)
    have ht : (Char.ofNat (d.toNat + 32)).toNat = d.toNat + 32 := by
      simp [Char.ofNat, hv]; rfl
    simp only [isUpperChar, ht]
    simp only [Bool.and_eq_false_iff, decide_eq_false_iff_not]
    omega
  · rw [if_neg h]
    simp only [Bool.and_eq_true, decide_eq_true_eq] at h
    simp only [isUpperChar, Bool.and_eq_false_iff, decide_eq_false_iff_not]
    omega

theorem map_pyLower_ne {t : List Char} {c : Char} (hc : c ∈ t)
    (hu : isUpperChar c = true) : t.map pyLower ≠ t := by
  intro heq
  have hmem : c ∈ t.map pyLower := by rw [heq]; exact hc
  obtain ⟨d, _, hdc⟩ := List.mem_map.mp hmem
  have := isUpperChar_pyLower d
  rw [hdc, hu] at this
  cases this

theorem upper_not_space {c : Char} (h : isUpperChar c = true) : isSpaceChar c = false := by
  simp only [isUpperChar, Bool.and_eq_true, decide_eq_true_eq] at h
  simp only [isSpaceChar, Bool.or_eq_false_iff, decide_eq_false_iff_not]
  omega

theorem getLast?_ex {l : List Char} {a : Char} (h : l.getLast? = some a) :
    ∃ u, l = u ++ [a] := by
  induction l with
  | nil => cases h
  | cons b t ih =>
    cases t with
    | nil =>
      simp only [List.getLast?_singleton, Option.some.injEq] at h
      exact ⟨[], by rw [h]; rfl⟩
    | cons b' t' =>
      rw [List.getLast?_cons_cons] at h
      obtain ⟨u, hu⟩ := ih h
      exact ⟨b :: u, by rw [List.cons_append, ← hu]⟩

theorem vn_isEmpty_false {name : String} (hne : pyStrip name.data ≠ []) :
    (pyStrip name.data).isEmpty = false := by
  simpa [List.isEmpty_iff] using hne

theorem vn_mem_length {name : String} {dir : Option String}
    (hne : pyStrip name.data ≠ []) (h : (pyStrip name.data).length > 64) :
    ("Skill name '" ++ String.mk (pyStrip name.data) ++ "' exceeds 64 character limit (" ++
      toString (pyStrip name.data).length ++ " chars)") ∈ validate_name name dir := by
  simp [validate_name, vn_isEmpty_false hne, h]

theorem vn_mem_lower {name : String} {dir : Option String}
    (hne : pyStrip name.data ≠ [])
    (h : pyStrip name.data ≠ (pyStrip name.data).map pyLower) :
    ("Skill name '" ++ String.mk (pyStrip name.data) ++ "' must be lowercase") ∈
      validate_name name dir := by
  simp [validate_name, vn_isEmpty_false hne, h]

theorem vn_mem_edge {name : String} {dir : Option String}
    (hne : pyStrip name.data ≠ [])
    (h : (pyStrip name.data).head? = some '-' ∨ (pyStrip name.data).getLast? = some '-') :
    "Skill name cannot start or end with a hyphen" ∈ validate_name name dir := by
  simp [validate_name, vn_isEmpty_false hne, h]

theorem vn_mem_double {name : String} {dir : Option String}
    (hne : pyStrip name.data ≠ [])
    (h : hasSubB ['-', '-'] (pyStrip name.data) = true) :
    "Skill name cannot contain consecutive hyphens" ∈ validate_name name dir := by
  simp [validate_name, vn_isEmpty_false hne, h]

theorem vn_mem_charset {name : String} {dir : Option String}
    (hne : pyStrip name.data ≠ [])
    (h : ¬ (pyStrip name.data).all (fun c => isAlnumChar c || c == '-') = true) :
    ("Skill name '" ++ String.mk (pyStrip name.data) ++ "' contains invalid characters. " ++
      "Only letters, digits, and hyphens are allowed.") ∈ validate_name name dir := by
  simp [validate_name, vn_isEmpty_false hne, h]

theorem vn_mem_dir {name : String} {d : String}
    (hne : pyStrip name.data ≠ []) (h : d ≠ String.mk (pyStrip name.data)) :
    ("Directory name '" ++ d ++ "' must match skill name '" ++
      String.mk (pyStrip name.data) ++ "'") ∈ validate_name name (some d) := by
  simp [validate_name, vn_isEmpty_false hne, h]

/-- C5: every name (non-empty after trimming) that contains an ASCII uppercase
letter, or contains two consecutive hyphens, or starts or ends with a hyphen,
receives at least one violation from `validate_name`; and
`validate_name "valid-skill-1"` with no directory context returns no
violations. -/
theorem validate_name_bad_name_violations :
    (∀ name : String, pyStrip name.data ≠ [] →
      ((∃ c ∈ name.data, isUpperChar c = true) ∨
        occursIn ['-', '-'] name.data ∨
        name.data.head? = some '-' ∨ name.data.getLast? = some '-') →
      validate_name name none ≠ []) ∧
    validate_name "valid-skill-1" none = [] := by
  refine ⟨?_, by decide⟩
  intro name hne hbad
  rcases hbad with ⟨c, hcmem, hcu⟩ | hocc | hh | hl
  · have hmem := mem_pyStrip_of_mem hcmem (upper_not_space hcu)
    have hlow : pyStrip name.data ≠ (pyStrip name.data).map pyLower :=
      fun heq => map_pyLower_ne hmem hcu heq.symm
    exact List.ne_nil_of_mem (vn_mem_lower hne hlow)
  · have hocc2 := occursIn_pyStrip hocc (by decide) (by decide)
    exact List.ne_nil_of_mem (vn_mem_double hne (hasSubB_iff.mpr hocc2))
  · obtain ⟨t, ht⟩ : ∃ t, name.data = '-' :: t := by
      cases hd : name.data with
      | nil => rw [hd] at hh; cases hh
      | cons a t =>
        rw [hd] at hh
        simp only [List.head?_cons, Option.some.injEq] at hh
        exact ⟨t, by rw [hh]⟩
    obtain ⟨t', ht'⟩ := pyStrip_cons_head (l := t) (c := '-') (by decide)
    have hhd : (pyStrip name.data).head? = some '-' := by rw [ht, ht']; rfl
    exact List.ne_nil_of_mem (vn_mem_edge hne (Or.inl hhd))
  · obtain ⟨u, hu⟩ := getLast?_ex hl
    obtain ⟨w, hw⟩ := pyStrip_concat_last (l := u) (c := '-') (by decide)
    have hlst : (pyStrip name.data).getLast? = some '-' := by rw [hu, hw]; simp
    exact List.ne_nil_of_mem (vn_mem_edge hne (Or.inr hlst))

theorem validate_name_bad_name_violations_witness :
    validate_name "UPPER" none ≠ [] :=
  validate_name_bad_name_violations.1 "UPPER" (by decide)
    (Or.inl ⟨'U', by decide, by decide⟩)

/-- C6 counterexample: for an empty name with a differing directory context,
`validate_name` returns only the non-empty-name violation — the
directory-mismatch violation is not reported, so the checks are not
uniformly additive. -/
theorem validate_name_empty_shortcircuit_cex :
    validate_name "" (some "skills") = ["Field 'name' must be a non-empty string"] := by
  decide

/-- C6 (amended): once the name is non-empty after trimming, the name rules
are additive — every violated rule contributes its message to the returned
list; but an empty (or whitespace-only) name short-circuits, reporting only
the non-empty-name violation even when a mismatching directory context is
supplied. -/
theorem validate_name_additivity_after_nonempty :
    (∀ (name : String) (dir : Option String), pyStrip name.data = [] →
      validate_name name dir = ["Field 'name' must be a non-empty string"]) ∧
    (∀ (name : String) (dir : Option String), pyStrip name.data ≠ [] →
      (((pyStrip name.data).length > 64 →
        ("Skill name '" ++ String.mk (pyStrip name.data) ++
          "' exceeds 64 character limit (" ++ toString (pyStrip name.data).length ++
          " chars)") ∈ validate_name name dir) ∧
      (pyStrip name.data ≠ (pyStrip name.data).map pyLower →
        ("Skill name '" ++ String.mk (pyStrip name.data) ++ "' must be lowercase") ∈
          validate_name name dir) ∧
      ((pyStrip name.data).head? = some '-' ∨ (pyStrip name.data).getLast? = some '-' →
        "Skill name cannot start or end with a hyphen" ∈ validate_name name dir) ∧
      (hasSubB ['-', '-'] (pyStrip name.data) = true →
        "Skill name cannot contain consecutive hyphens" ∈ validate_name name dir) ∧
      (¬ (pyStrip name.data).all (fun c => isAlnumChar c || c == '-') = true →
        ("Skill name '" ++ String.mk (pyStrip name.data) ++
          "' contains invalid characters. " ++
          "Only letters, digits, and hyphens are allowed.") ∈ validate_name name dir) ∧
      (∀ d : String, dir = some d → d ≠ String.mk (pyStrip name.data) →
        ("Directory name '" ++ d ++ "' must match skill name '" ++
          String.mk (pyStrip name.data) ++ "'") ∈ validate_name name (some d)))) := by
  constructor
  · intro name dir h
    simp [validate_name, h]
  · intro name dir hne
    exact ⟨vn_mem_length hne, vn_mem_lower hne, vn_mem_edge hne, vn_mem_double hne,
      vn_mem_charset hne, fun d _ h2 => vn_mem_dir hne h2⟩

theorem findSep_sound {sep l pre post : List Char}
    (h : findSep sep l = some (pre, post)) : l = pre ++ sep ++ post := by
  induction l generalizing pre post with
  | nil => cases h
  | cons c rest ih =>
    simp only [findSep] at h
    by_cases hp : sep.isPrefixOf (c :: rest) = true
    · rw [if_pos hp] at h
      obtain ⟨v, hv⟩ := isPrefixOf_iff_ex.mp hp
      cases h
      rw [List.nil_append, hv, List.drop_left]
    · rw [if_neg hp] at h
      cases hfd : findSep sep rest with
      | none => rw [hfd] at h; cases h
      | some pp =>
        obtain ⟨pre', post'⟩ := pp
        rw [hfd] at h
        cases h
        simpa using ih hfd

theorem findSep_pre_no_occ {sep l pre post : List Char}
    (h : findSep sep l = some (pre, post)) (hsep : sep ≠ []) : ¬ occursIn sep pre := by
  induction l generalizing pre post with
  | nil => cases h
  | cons c rest ih =>
    simp only [findSep] at h
    by_cases hp : sep.isPrefixOf (c :: rest) = true
    · rw [if_pos hp] at h
      cases h
      rintro ⟨u, v, huv⟩
      rcases List.append_eq_nil.mp huv.symm with ⟨h1, _⟩
      exact hsep (List.append_eq_nil.mp h1).2
    · rw [if_neg hp] at h
      cases hfd : findSep sep rest with
      | none => rw [hfd] at h; cases h
      | some pp =>
        obtain ⟨pre2, post2⟩ := pp
        rw [hfd] at h
        simp only [Option.some.injEq, Prod.mk.injEq] at h
        obtain ⟨h1, h2⟩ := h
        subst h1
        subst h2
        rintro ⟨u, v, huv⟩
        cases u with
        | nil =>
          simp only [List.nil_append] at huv
          apply hp
          apply isPrefixOf_iff_ex.mpr
          have hr := findSep_sound hfd
          refine ⟨v ++ sep ++ post2, ?_⟩
          rw [hr]
          have : (c :: pre2) ++ sep ++ post2 = (sep ++ v) ++ sep ++ post2 := by rw [huv]
          simpa using this
        | cons a u' =>
          rw [List.cons_append, List.cons_append] at huv
          cases huv
          exact ih hfd ⟨u', v, rfl⟩

theorem findSep_of_isPrefix {sep l : List Char} (hp : sep.isPrefixOf l = true)
    (hsep : sep ≠ []) : findSep sep l = some ([], l.drop sep.length) := by
  cases l with
  | nil =>
    obtain ⟨v, hv⟩ := isPrefixOf_iff_ex.mp hp
    rcases List.append_eq_nil.mp hv.symm with ⟨h1, _⟩
    exact absurd h1 hsep
  | cons c rest => simp only [findSep, if_pos hp]

theorem occursIn_findSep_some {sep l : List Char} (h : occursIn sep l) (hsep : sep ≠ []) :
    ∃ pr po, findSep sep l = some (pr, po) := by
  induction l with
  | nil =>
    obtain ⟨u, v, huv⟩ := h
    rcases List.append_eq_nil.mp huv.symm with ⟨h1, _⟩
    exact absurd (List.append_eq_nil.mp h1).2 hsep
  | cons c rest ih =>
    simp only [findSep]
    by_cases hp : sep.isPrefixOf (c :: rest) = true
    · rw [if_pos hp]; exact ⟨_, _, rfl⟩
    · rw [if_neg hp]
      obtain ⟨u, v, huv⟩ := h
      cases u with
      | nil => exact absurd (isPrefixOf_iff_ex.mpr ⟨v, by simpa using huv⟩) hp
      | cons a u' =>
        rw [List.cons_append, List.cons_append] at huv
        cases huv
        obtain ⟨pr, po, hfd⟩ := ih ⟨u', v, rfl⟩
        rw [hfd]
        exact ⟨_, _, rfl⟩

theorem splitSkillMd_ok {s : String} {p1 p2 : List Char}
    (h : splitSkillMd s = .ok (p1, p2)) :
    ∃ B, s.data = delim ++ p1 ++ delim ++ B ∧ ¬ occursIn delim p1 ∧ p2 = pyStrip B := by
  rw [splitSkillMd] at h
  by_cases hp : delim.isPrefixOf s.data = true
  · rw [if_pos hp] at h
    have h0 := findSep_of_isPrefix hp (by decide)
    have e1 : pySplit3 2 s.data = [] :: pySplit3 1 (s.data.drop delim.length) := by
      simp only [pySplit3, h0]
    cases hfd : findSep delim (s.data.drop delim.length) with
    | none =>
      have e2 : pySplit3 1 (s.data.drop delim.length) = [s.data.drop delim.length] := by
        simp only [pySplit3, hfd]
      rw [e1, e2] at h
      cases h
    | some pp =>
      obtain ⟨q1, q2⟩ := pp
      have e2 : pySplit3 1 (s.data.drop delim.length) = q1 :: pySplit3 0 q2 := by
        simp only [pySplit3, hfd]
      have e3 : pySplit3 0 q2 = [q2] := by simp only [pySplit3]
      rw [e1, e2, e3] at h
      have h' : q1 = p1 ∧ pyStrip q2 = p2 := by
        simp only [Except.ok.injEq, Prod.mk.injEq] at h
        exact h
      obtain ⟨rfl, rfl⟩ := h'
      have hd := findSep_sound hfd
      obtain ⟨v, hv⟩ := isPrefixOf_iff_ex.mp hp
      have hdrop : s.data.drop delim.length = v := by rw [hv, List.drop_left]
      refine ⟨q2, ?_, findSep_pre_no_occ hfd (by decide), rfl⟩
      rw [hv, ← hdrop, hd]
      simp
  · rw [if_neg hp] at h
    cases h

theorem splitSkillMd_fail {s : String}
    (h : ¬ ∃ A B, s.data = delim ++ A ++ delim ++ B) :
    ∀ r, splitSkillMd s ≠ .ok r := by
  intro r hok
  rw [splitSkillMd] at hok
  by_cases hp : delim.isPrefixOf s.data = true
  · rw [if_pos hp] at hok
    have h0 := findSep_of_isPrefix hp (by decide)
    have e1 : pySplit3 2 s.data = [] :: pySplit3 1 (s.data.drop delim.length) := by
      simp only [pySplit3, h0]
    cases hfd : findSep delim (s.data.drop delim.length) with
    | none =>
      have e2 : pySplit3 1 (s.data.drop delim.length) = [s.data.drop delim.length] := by
        simp only [pySplit3, hfd]
      rw [e1, e2] at hok
      cases hok
    | some pp =>
      obtain ⟨q1, q2⟩ := pp
      have hd := findSep_sound hfd
      obtain ⟨v, hv⟩ := isPrefixOf_iff_ex.mp hp
      have hdrop : s.data.drop delim.length = v := by rw [hv, List.drop_left]
      refine h ⟨q1, q2, ?_⟩
      rw [hv, ← hdrop, hd]
      simp
  · rw [if_neg hp] at hok
    cases hok

theorem parse_skill_md_ok_shape {yl : String → Except String Yaml} {s : String}
    {fm : Frontmatter} {body : String} (h : parse_skill_md yl s = .ok (fm, body)) :
    ∃ p1 p2 m nm ds, splitSkillMd s = .ok (p1, p2) ∧
      yl (String.mk p1) = .ok (.map m) ∧
      lookupKey m "name" = some (.str nm) ∧
      lookupKey m "description" = some (.str ds) ∧
      fm = ⟨String.mk (pyStrip nm.data), String.mk (pyStrip ds.data),
            lookupKey m "license", lookupKey m "compatibility",
            lookupKey m "allowed-tools",
            match lookupKey m "metadata" with
            | some (.map mm) => stringifyMeta mm
            | _ => []⟩ ∧
      body = String.mk p2 := by
  rw [parse_skill_md] at h
  cases hsp : splitSkillMd s with
  | error e => rw [hsp] at h; cases h
  | ok p =>
    obtain ⟨p1, p2⟩ := p
    simp only [hsp] at h
    cases hyl : yl (String.mk p1) with
    | error e => simp only [hyl] at h; cases h
    | ok y =>
      simp only [hyl] at h
      cases y with
      | map m =>
        cases hn : lookupKey m "name" with
        | none => simp only [hn] at h; cases h
        | some nv =>
          cases hd : lookupKey m "description" with
          | none => simp only [hn, hd] at h; cases h
          | some dv =>
            cases nv with
            | str nm =>
              cases dv with
              | str ds =>
                by_cases hne : (pyStrip nm.data).isEmpty = true
                · simp only [hn, hd] at h; rw [if_pos hne] at h; cases h
                · by_cases hde : (pyStrip ds.data).isEmpty = true
                  · simp only [hn, hd] at h
                    rw [if_neg hne, if_pos hde] at h
                    cases h
                  · simp only [hn, hd] at h
                    rw [if_neg hne, if_neg hde] at h
                    simp only [Except.ok.injEq, Prod.mk.injEq] at h
                    obtain ⟨h1, h2⟩ := h
                    exact ⟨p1, p2, m, nm, ds, rfl, hyl, hn, hd, h1.symm, h2.symm⟩
              | null => simp only [hn, hd] at h; split at h <;> cases h
              | bool b => simp only [hn, hd] at h; split at h <;> cases h
              | int n => simp only [hn, hd] at h; split at h <;> cases h
              | list xs => simp only [hn, hd] at h; split at h <;> cases h
              | map mm => simp only [hn, hd] at h; split at h <;> cases h
            | null => simp only [hn, hd] at h; cases h
            | bool b => simp only [hn, hd] at h; cases h
            | int n => simp only [hn, hd] at h; cases h
            | list xs => simp only [hn, hd] at h; cases h
            | map mm => simp only [hn, hd] at h; cases h
      | null => cases h
      | bool b => cases h
      | int n => cases h
      | str t => cases h
      | list xs => cases h

/-- C4 counterexample: on a document in which the delimiter `---` occurs only
once beyond the opening one (no three disjoint occurrences exist), the parse
succeeds rather than failing; the claim's failure condition ("fewer than two
further occurrences") is therefore too strong. -/
theorem parse_skill_md_one_closing_delim_cex :
    (¬ ∃ A B C, ("---\nname: a\ndescription: b\n---" : String).data =
        delim ++ A ++ delim ++ B ++ delim ++ C) ∧
    parse_skill_md ylDemo "---\nname: a\ndescription: b\n---" =
      .ok (⟨"a", "b", none, none, none, []⟩, "") := by
  refine ⟨?_, rfl⟩
  rintro ⟨A, B, C, h⟩
  have hc := congrArg (List.count '-') h
  have hcount : List.count '-' ("---\nname: a\ndescription: b\n---" : String).data = 6 := by
    decide
  rw [hcount] at hc
  simp only [List.count_append, delim] at hc
  have h3 : List.count '-' ['-', '-', '-'] = 3 := by decide
  rw [h3] at hc
  omega

/-- C4 (amended): `parse_skill_md` fails on every input that does not begin
with `---`; it fails whenever the delimiter does not occur a second time
(no decomposition `--- A --- B` exists); and on success the body is the text
after the second delimiter occurrence, stripped, while the loader is applied
to exactly the text strictly between the first and second occurrences. -/
theorem parse_skill_md_delimiters :
    (∀ (yl : String → Except String Yaml) (s : String),
      delim.isPrefixOf s.data = false →
      parse_skill_md yl s = .error "SKILL.md must start with YAML frontmatter (---)") ∧
    (∀ (yl : String → Except String Yaml) (s : String),
      (¬ ∃ A B, s.data = delim ++ A ++ delim ++ B) →
      ∀ r, parse_skill_md yl s ≠ .ok r) ∧
    (∀ (yl : String → Except String Yaml) (s : String) (fm : Frontmatter) (body : String),
      parse_skill_md yl s = .ok (fm, body) →
      ∃ A B, s.data = delim ++ A ++ delim ++ B ∧ ¬ occursIn delim A ∧
        body.data = pyStrip B ∧ ∃ y, yl (String.mk A) = .ok y) := by
  refine ⟨?_, ?_, ?_⟩
  · intro yl s h
    have hsp : splitSkillMd s =
        .error "SKILL.md must start with YAML frontmatter (---)" := by
      rw [splitSkillMd, if_neg]
      rw [h]
      simp
    simp only [parse_skill_md, hsp]
  · intro yl s h r hok
    rw [parse_skill_md] at hok
    cases hsp : splitSkillMd s with
    | error e => rw [hsp] at hok; cases hok
    | ok p => exact splitSkillMd_fail h p hsp
  · intro yl s fm body hok
    obtain ⟨p1, p2, m, nm, ds, hsp, hyl, _, _, _, hbody⟩ := parse_skill_md_ok_shape hok
    obtain ⟨B, hdec, hnocc, hp2⟩ := splitSkillMd_ok hsp
    refine ⟨p1, B, hdec, hnocc, ?_, ⟨_, hyl⟩⟩
    rw [hbody, ← hp2]

theorem parse_skill_md_delimiters_witness :
    parse_skill_md ylEmptyMap "no frontmatter" =
      .error "SKILL.md must start with YAML frontmatter (---)" ∧
    parse_skill_md ylEmptyMap "---ab" ≠
      .ok (⟨"a", "b", none, none, none, []⟩, "") ∧
    (∃ A B, ("---x---y" : String).data = delim ++ A ++ delim ++ B ∧
      ¬ occursIn delim A ∧ ("y" : String).data = pyStrip B ∧
      ∃ y, ylDemo (String.mk A) = .ok y) :=
  ⟨parse_skill_md_delimiters.1 ylEmptyMap "no frontmatter" (by decide),
    parse_skill_md_delimiters.2.1 ylEmptyMap "---ab"
      (by
        rintro ⟨A, B, h⟩
        have hc := congrArg List.length h
        simp [delim] at hc
        omega)
      (⟨"a", "b", none, none, none, []⟩, ""),
    parse_skill_md_delimiters.2.2 ylDemo "---x---y" ⟨"a", "b", none, none, none, []⟩
      "y" rfl⟩

/-- C3: whenever the loaded frontmatter mapping lacks the key `name` (or has
`name` but lacks `description`), `parse_skill_md` fails with the error naming
exactly the missing field — it never returns a `Frontmatter` with a defaulted
value for that field. -/
theorem parse_skill_md_missing_required_field :
    ∀ (yl : String → Except String Yaml) (s : String) (fmc bodyc : List Char)
      (m : List (Yaml × Yaml)),
      splitSkillMd s = .ok (fmc, bodyc) →
      yl (String.mk fmc) = .ok (.map m) →
      (lookupKey m "name" = none →
        parse_skill_md yl s = .error "Missing required field in frontmatter: name") ∧
      (∀ v, lookupKey m "name" = some v → lookupKey m "description" = none →
        parse_skill_md yl s =
          .error "Missing required field in frontmatter: description") := by
  intro yl s fmc bodyc m hsp hyl
  constructor
  · intro hn
    simp only [parse_skill_md, hsp, hyl, hn]
  · intro v hv hd
    simp only [parse_skill_md, hsp, hyl, hv, hd]

theorem parse_skill_md_missing_required_field_witness :
    parse_skill_md ylEmptyMap "---x---" =
      .error "Missing required field in frontmatter: name" ∧
    parse_skill_md ylNameOnly "---x---" =
      .error "Missing required field in frontmatter: description" :=
  ⟨(parse_skill_md_missing_required_field ylEmptyMap "---x---" ['x'] [] [] rfl rfl).1 rfl,
    (parse_skill_md_missing_required_field ylNameOnly "---x---" ['x'] []
      [(.str "name", .str "a")] rfl rfl).2 (.str "a") rfl rfl⟩

theorem dset_append {α : Type} {d : List (String × α)} {k : String} {v : α}
    (h : d.any (fun kv => kv.1 == k) = false) : dset d k v = d ++ [(k, v)] := by
  simp only [dset, h]
  rfl

theorem foldl_dset_eq (mm : List (Yaml × Yaml)) :
    ∀ acc : List (String × String),
      (mm.map (fun kv => pyStr kv.1)).Nodup →
      (∀ kv ∈ mm, acc.any (fun e => e.1 == pyStr kv.1) = false) →
      List.foldl (fun a kv => dset a (pyStr kv.1) (pyStr kv.2)) acc mm =
        acc ++ mm.map (fun kv => (pyStr kv.1, pyStr kv.2)) := by
  induction mm with
  | nil => intro acc _ _; simp
  | cons kv rest ih =>
    intro acc hnd hacc
    simp only [List.foldl_cons]
    rw [dset_append (hacc kv (List.mem_cons_self _ _))]
    simp only [List.map_cons, List.nodup_cons] at hnd
    rw [ih (acc ++ [(pyStr kv.1, pyStr kv.2)]) hnd.2 ?_]
    · simp
    · intro kv' hkv'
      rw [List.any_append]
      rw [hacc kv' (List.mem_cons_of_mem _ hkv')]
      simp only [List.any_cons, List.any_nil, Bool.false_or, Bool.or_false]
      have hne : pyStr kv.1 ≠ pyStr kv'.1 := by
        intro hcontra
        exact hnd.1 (hcontra ▸ List.mem_map_of_mem (fun kv => pyStr kv.1) hkv')
      simpa using hne

theorem stringifyMeta_eq_map {mm : List (Yaml × Yaml)}
    (h : (mm.map (fun kv => pyStr kv.1)).Nodup) :
    stringifyMeta mm = mm.map (fun kv => (pyStr kv.1, pyStr kv.2)) := by
  have := foldl_dset_eq mm [] h (by simp)
  simpa [stringifyMeta] using this

/-- C7: when the frontmatter carries a `metadata` key whose value is a
mapping, the parsed `Frontmatter.metadata` is that mapping with every key and
every value coerced to its Python string form (stated for mappings whose
stringified keys are distinct, where the dict comprehension keeps all
entries); when the `metadata` value is not a mapping, it is not accepted
as-is — the parsed `Frontmatter.metadata` stays the empty default. -/
theorem parse_skill_md_metadata_stringified :
    ∀ (yl : String → Except String Yaml) (s : String) (fm : Frontmatter)
      (body : String) (m : List (Yaml × Yaml)) (p1 p2 : List Char),
      splitSkillMd s = .ok (p1, p2) →
      yl (String.mk p1) = .ok (.map m) →
      parse_skill_md yl s = .ok (fm, body) →
      (∀ mm, lookupKey m "metadata" = some (.map mm) →
        (mm.map (fun kv => pyStr kv.1)).Nodup →
        fm.metadata = mm.map (fun kv => (pyStr kv.1, pyStr kv.2))) ∧
      (∀ v, lookupKey m "metadata" = some v → (∀ mm, v ≠ .map mm) →
        fm.metadata = []) ∧
      (lookupKey m "metadata" = none → fm.metadata = []) := by
  intro yl s fm body m p1 p2 hsp hyl hok
  obtain ⟨q1, q2, m', nm, ds, hsp', hyl', hn, hd, hfm, _⟩ := parse_skill_md_ok_shape hok
  rw [hsp] at hsp'
  have hq : p1 = q1 ∧ p2 = q2 := by
    simp only [Except.ok.injEq, Prod.mk.injEq] at hsp'
    exact hsp'
  obtain ⟨rfl, rfl⟩ := hq
  rw [hyl] at hyl'
  have hm : m = m' := by
    simp only [Except.ok.injEq, Yaml.map.injEq] at hyl'
    exact hyl'
  subst hm
  refine ⟨?_, ?_, ?_⟩
  · intro mm hmm hnd
    rw [hfm, hmm]
    exact stringifyMeta_eq_map hnd
  · intro v hv hnotmap
    rw [hfm, hv]
    cases v with
    | map mm => exact absurd rfl (hnotmap mm)
    | null => rfl
    | bool b => rfl
    | int n => rfl
    | str t => rfl
    | list xs => rfl
  · intro hnone
    rw [hfm, hnone]

theorem parse_skill_md_metadata_stringified_witness :
    (Frontmatter.mk "a" "b" none none none [("k", "v"), ("j", "w")]).metadata =
      [("k", "v"), ("j", "w")] ∧
    (Frontmatter.mk "a" "b" none none none []).metadata = [] :=
  ⟨(parse_skill_md_metadata_stringified ylMeta "---x---"
      (Frontmatter.mk "a" "b" none none none [("k", "v"), ("j", "w")]) ""
      [(.str "name", .str "a"), (.str "description", .str "b"),
        (.str "metadata", .map [(.str "k", .str "v"), (.str "j", .str "w")])]
      ['x'] [] rfl rfl rfl).1
      [(.str "k", .str "v"), (.str "j", .str "w")] rfl (by decide),
    (parse_skill_md_metadata_stringified ylMetaScalar "---x---"
      (Frontmatter.mk "a" "b" none none none []) ""
      [(.str "name", .str "a"), (.str "description", .str "b"),
        (.str "metadata", .str "oops")]
      ['x'] [] rfl rfl rfl).2.1 (.str "oops") rfl
      (fun mm h => Yaml.noConfusion h)⟩

theorem dlookup_dset {α : Type} (d : List (String × α)) (k : String) (v : α) :
    dlookup (dset d k v) k = some v := by
  rw [dset]
  by_cases h : d.any (fun kv => kv.1 == k) = true
  · rw [if_pos h]
    induction d with
    | nil => cases h
    | cons e rest ih =>
      simp only [List.map_cons]
      by_cases he : (e.1 == k) = true
      · rw [if_pos he]
        simp [dlookup, List.find?]
      · rw [if_neg he]
        simp only [List.any_cons, he, Bool.false_or] at h
        have := ih h
        simp only [dlookup, List.find?, he] at this ⊢
        exact this
  · rw [if_neg h]
    induction d with
    | nil => simp [dlookup, List.find?]
    | cons e rest ih =>
      simp only [List.any_cons, Bool.or_eq_true, not_or] at h
      have he : (e.1 == k) = false := by
        cases hee : e.1 == k
        · rfl
        · exact absurd hee h.1
      simp only [List.cons_append, dlookup, List.find?, he]
      have := ih (by simp [h.2])
      simp only [dlookup] at this
      exact this

/-- C8: on both mutation-supporting backends (`InMemoryClient` and `Skills`),
`create(skill)` followed immediately by `retrieve(skill.name)` succeeds and
returns the stored skill itself, so in particular a skill with the same
`name` and `description`. -/
theorem create_then_retrieve_roundtrip :
    (∀ (st : List (String × Skill)) (sk : Skill),
      inMemoryRetrieve (inMemoryCreate st sk).1 sk.name = .ok sk) ∧
    (∀ (st : List (String × Skill)) (sk : Skill),
      skillsRetrieve (skillsCreate st sk).1 sk.name = .ok sk) ∧
    (∀ (st : List (String × Skill)) (sk sk' : Skill),
      inMemoryRetrieve (inMemoryCreate st sk).1 sk.name = .ok sk' →
      sk'.name = sk.name ∧ sk'.description = sk.description) := by
  have h1 : ∀ (st : List (String × Skill)) (sk : Skill),
      inMemoryRetrieve (inMemoryCreate st sk).1 sk.name = .ok sk := by
    intro st sk
    simp only [inMemoryCreate, inMemoryRetrieve, dlookup_dset]
  refine ⟨h1, ?_, ?_⟩
  · intro st sk
    simp only [skillsCreate, skillsRetrieve, dlookup_dset]
  · intro st sk sk' hret
    rw [h1 st sk] at hret
    cases hret
    exact ⟨rfl, rfl⟩

theorem create_then_retrieve_roundtrip_witness :
    inMemoryRetrieve
        (inMemoryCreate [] ⟨⟨"s1", "d1", none, none, none, []⟩, "body", {}⟩).1 "s1" =
      .ok ⟨⟨"s1", "d1", none, none, none, []⟩, "body", {}⟩ :=
  create_then_retrieve_roundtrip.1 [] ⟨⟨"s1", "d1", none, none, none, []⟩, "body", {}⟩

theorem find?_map_replace {α : Type} {k k' : String} (v : α)
    (hkk : (k == k') = false) :
    ∀ d : List (String × α),
      List.find? (fun kv => kv.1 == k')
          (d.map (fun kv => if kv.1 == k then (k, v) else kv)) =
        List.find? (fun kv => kv.1 == k') d := by
  intro d
  induction d with
  | nil => rfl
  | cons e rest ih =>
    simp only [List.map_cons, List.find?_cons]
    by_cases he : (e.1 == k) = true
    · have he1 : e.1 = k := by simpa using he
      rw [if_pos he]
      simp only [he1, hkk, Bool.false_eq_true, if_false]
      exact ih
    · rw [if_neg he]
      by_cases he2 : (e.1 == k') = true
      · simp [he2]
      · simp only [he2, Bool.false_eq_true, if_false]
        exact ih

theorem find?_append_key_ne {α : Type} {k k' : String} (v : α)
    (hkk : (k == k') = false) :
    ∀ d : List (String × α),
      List.find? (fun kv => kv.1 == k') (d ++ [(k, v)]) =
        List.find? (fun kv => kv.1 == k') d := by
  intro d
  induction d with
  | nil => simp [List.find?_cons, hkk]
  | cons e rest ih =>
    simp only [List.cons_append, List.find?_cons]
    by_cases he2 : (e.1 == k') = true
    · simp [he2]
    · simp only [he2, Bool.false_eq_true, if_false]
      exact ih

theorem dlookup_dset_ne {α : Type} (d : List (String × α)) {k k' : String} (v : α)
    (h : k ≠ k') : dlookup (dset d k v) k' = dlookup d k' := by
  have hkk : (k == k') = false := by
    cases hc : k == k'
    · rfl
    · exact absurd (by simpa using hc) h
  rw [dset]
  by_cases ha : d.any (fun kv => kv.1 == k) = true
  · rw [if_pos ha, dlookup, dlookup, find?_map_replace v hkk d]
  · rw [if_neg ha, dlookup, dlookup, find?_append_key_ne v hkk d]

theorem puRun_preserve (key : String) :
    ∀ (l : List String) (cur : Option (String × List String))
      (res : List (String × PyVal)),
      (∀ t ∈ l, isDashDash t = true → underscoredName (dropTwo t) ≠ key) →
      (∀ k acc, cur = some (k, acc) → k ≠ key) →
      dlookup (puRun cur res l) key = dlookup res key := by
  intro l
  induction l with
  | nil =>
    intro cur res _ hcur
    cases cur with
    | none => rfl
    | some kacc =>
      obtain ⟨k, acc⟩ := kacc
      exact dlookup_dset_ne res _ (hcur k acc rfl)
  | cons t rest ih =>
    intro cur res hl hcur
    have hrest : ∀ t ∈ rest, isDashDash t = true → underscoredName (dropTwo t) ≠ key :=
      fun x hx => hl x (List.mem_cons_of_mem _ hx)
    by_cases ht : isDashDash t = true
    · have hk2 : underscoredName (dropTwo t) ≠ key := hl t (List.mem_cons_self _ _) ht
      cases cur with
      | none =>
        simp only [puRun, ht, if_true]
        exact ih _ res hrest (by rintro k acc ⟨rfl, rfl⟩ h2; exact hk2 h2)
      | some kacc =>
        obtain ⟨k, acc⟩ := kacc
        simp only [puRun, ht, if_true]
        rw [ih _ _ hrest (by rintro k2 acc2 heq; cases heq; exact hk2)]
        exact dlookup_dset_ne res _ (hcur k acc rfl)
    · have ht' : isDashDash t = false := by
        cases h2 : isDashDash t
        · rfl
        · exact absurd h2 ht
      cases cur with
      | none =>
        simp only [puRun, ht', Bool.false_eq_true, if_false]
        exact ih _ res hrest (by rintro k acc h2; cases h2)
      | some kacc =>
        obtain ⟨k, acc⟩ := kacc
        simp only [puRun, ht', Bool.false_eq_true, if_false]
        exact ih _ res hrest (by rintro k2 acc2 heq; cases heq; exact hcur k acc rfl)

theorem puRun_tail_append (key : String) :
    ∀ (vs accRev : List String) (res : List (String × PyVal)) (w : List String),
      (∀ t ∈ vs, isDashDash t = false) →
      puRun (some (key, accRev)) res (vs ++ w) =
        puRun (some (key, vs.reverse ++ accRev)) res w := by
  intro vs
  induction vs with
  | nil => intro accRev res w _; simp
  | cons t rest ih =>
    intro accRev res w hnf
    have ht : isDashDash t = false := hnf t (List.mem_cons_self _ _)
    rw [List.cons_append]
    simp only [puRun, ht, Bool.false_eq_true, if_false]
    rw [ih (t :: accRev) res w (fun x hx => hnf x (List.mem_cons_of_mem _ hx))]
    have harr : rest.reverse ++ (t :: accRev) = (t :: rest).reverse ++ accRev := by
      simp
    rw [harr]

theorem dashDash_append (kraw : String) : isDashDash ("--" ++ kraw) = true := by
  show ['-', '-'].isPrefixOf (("--" ++ kraw)).data = true
  rw [String.data_append]
  exact isPrefixOf_iff_ex.mpr ⟨kraw.data, rfl⟩

theorem dropTwo_append (kraw : String) : dropTwo ("--" ++ kraw) = kraw := by
  show String.mk ((("--" ++ kraw)).data.drop 2) = kraw
  rw [String.data_append]
  rfl

theorem puRun_middle (kraw : String) (vs w : List String)
    (hvs : ∀ t ∈ vs, isDashDash t = false)
    (hw1 : ∀ t ∈ w, isDashDash t = true →
      underscoredName (dropTwo t) ≠ underscoredName kraw)
    (hw2 : w = [] ∨ ∃ f w2, w = f :: w2 ∧ isDashDash f = true) :
    ∀ (u : List String) (cur : Option (String × List String))
      (res : List (String × PyVal)),
      dlookup (puRun cur res (u ++ ("--" ++ kraw) :: (vs ++ w)))
        (underscoredName kraw) = some (groupVal vs) := by
  have hbase : ∀ res : List (String × PyVal),
      dlookup (puRun (some (underscoredName kraw, [])) res (vs ++ w))
        (underscoredName kraw) = some (groupVal vs) := by
    intro res
    rw [puRun_tail_append _ vs [] res w hvs]
    rcases hw2 with rfl | ⟨f, w2, rfl, hf⟩
    · have hred : puRun (some (underscoredName kraw, vs.reverse ++ ([] : List String)))
          res [] =
          dset res (underscoredName kraw) (groupVal (vs.reverse ++ []).reverse) := rfl
      rw [hred, dlookup_dset]
      simp
    · simp only [puRun, hf, if_true]
      rw [puRun_preserve (underscoredName kraw) w2 _ _
        (fun x hx hfx => hw1 x (List.mem_cons_of_mem _ hx) hfx)
        (by rintro k2 acc2 heq; cases heq; exact hw1 f (List.mem_cons_self _ _) hf)]
      rw [dlookup_dset]
      simp
  intro u
  induction u with
  | nil =>
    intro cur res
    cases cur with
    | none =>
      simp only [List.nil_append, puRun, dashDash_append, if_true, dropTwo_append]
      exact hbase res
    | some kacc =>
      obtain ⟨k, acc⟩ := kacc
      simp only [List.nil_append, puRun, dashDash_append, if_true, dropTwo_append]
      exact hbase _
  | cons t u' ih =>
    intro cur res
    by_cases ht : isDashDash t = true
    · cases cur with
      | none =>
        simp only [List.cons_append, puRun, ht, if_true]
        exact ih _ _
      | some kacc =>
        obtain ⟨k, acc⟩ := kacc
        simp only [List.cons_append, puRun, ht, if_true]
        exact ih _ _
    · have ht' : isDashDash t = false := by
        cases h2 : isDashDash t
        · rfl
        · exact absurd h2 ht
      cases cur with
      | none =>
        simp only [List.cons_append, puRun, ht', Bool.false_eq_true, if_false]
        exact ih _ _
      | some kacc =>
        obtain ⟨k, acc⟩ := kacc
        simp only [List.cons_append, puRun, ht', Bool.false_eq_true, if_false]
        exact ih _ _

theorem puRun_final (kraw : String) (vs : List String)
    (hvs : ∀ t ∈ vs, isDashDash t = false) :
    ∀ (u : List String) (cur : Option (String × List String))
      (res : List (String × PyVal)),
      dlookup (puRun cur res (u ++ ("--" ++ kraw) :: vs)) (underscoredName kraw) =
        some (groupVal vs) := by
  intro u cur res
  have h := puRun_middle kraw vs [] hvs (by simp) (Or.inl rfl) u cur res
  simpa using h

theorem puRun_skip_prefix :
    ∀ (pre toks : List String) (res : List (String × PyVal)),
      (∀ t ∈ pre, isDashDash t = false) →
      puRun Option.none res (pre ++ toks) = puRun Option.none res toks := by
  intro pre
  induction pre with
  | nil => intro toks res _; rfl
  | cons t rest ih =>
    intro toks res hnf
    have ht : isDashDash t = false := hnf t (List.mem_cons_self _ _)
    simp only [List.cons_append, puRun, ht, Bool.false_eq_true, if_false]
    exact ih toks res (fun x hx => hnf x (List.mem_cons_of_mem _ hx))

/-- C1 counterexample: on the signature `(x: int, verbose: bool = False)`,
`to_function_input "42 --verbose"` does not return positional `(42,)` with
keyword `{verbose: true}`, and `to_function_input "42"` does not return a
keyword mapping `{verbose: false}` — the redistribution loop places
`verbose`, a positional-eligible parameter, into the positional tuple. -/
theorem to_function_input_x_verbose_cex :
    to_function_input sigXVerbose (.ofString "42 --verbose") ≠
      .ok ([.int 42], [("verbose", .bool true)]) ∧
    to_function_input sigXVerbose (.ofString "42") ≠
      .ok ([.int 42], [("verbose", .bool false)]) := by
  constructor
  · have h : to_function_input sigXVerbose (.ofString "42 --verbose") =
        .ok ([.int 42, .bool true], []) := rfl
    rw [h]
    simp
  · have h : to_function_input sigXVerbose (.ofString "42") =
        .ok ([.int 42, .bool false], []) := rfl
    rw [h]
    simp

/-- C1 (amended): for `(x: int, verbose: bool = False)`,
`to_function_input "42 --verbose"` returns positional `(42, true)` with an
empty keyword mapping, and `to_function_input "42"` returns positional
`(42, false)` with an empty keyword mapping: both positional-eligible
parameters are redistributed into the positional tuple, `verbose` carrying
the flag value resp. its default. -/
theorem to_function_input_x_verbose :
    to_function_input sigXVerbose (.ofString "42 --verbose") =
      .ok ([.int 42, .bool true], []) ∧
    to_function_input sigXVerbose (.ofString "42") =
      .ok ([.int 42, .bool false], []) :=
  ⟨rfl, rfl⟩

/-- C2: for `(*, tag: str = None, **rest)`,
`to_function_input "--tag foo --extra bar baz"` returns no positional
arguments and the keyword mapping `{tag: "foo", extra: ["bar", "baz"]}`;
and in general, in the permissive pass over leftover tokens, a `--key`
token followed by a run of non-flag tokens reaching the end of the leftovers
yields, under the key with hyphens turned to underscores, `true` for an empty
run, the single token for a run of one, and the token list otherwise,
whatever tokens precede it. -/
theorem to_function_input_keyword_catch_all :
    to_function_input sigTagRest (.ofString "--tag foo --extra bar baz") =
      .ok ([], [("tag", .str "foo"), ("extra", .list [.str "bar", .str "baz"])]) ∧
    (∀ (u : List String) (kraw : String) (vs w : List String),
      (∀ t ∈ vs, isDashDash t = false) →
      (∀ t ∈ w, isDashDash t = true →
        underscoredName (dropTwo t) ≠ underscoredName kraw) →
      (w = [] ∨ ∃ f w2, w = f :: w2 ∧ isDashDash f = true) →
      dlookup (parse_unknown_args (u ++ ("--" ++ kraw) :: (vs ++ w)))
        (underscoredName kraw) =
        some (match vs with
          | [] => PyVal.bool true
          | [x] => PyVal.str x
          | xs => PyVal.list (xs.map PyVal.str))) := by
  constructor
  · rfl
  · intro u kraw vs w hvs hw1 hw2
    have h := puRun_middle kraw vs w hvs hw1 hw2 u Option.none []
    rw [parse_unknown_args]
    rw [h]
    rfl

theorem to_function_input_keyword_catch_all_witness :
    dlookup (parse_unknown_args (["z"] ++ ("--" ++ "a-b") :: (["v"] ++ [])))
        (underscoredName "a-b") = some (PyVal.str "v") ∧
    dlookup (parse_unknown_args ([] ++ ("--" ++ "a") :: (["x"] ++ ["--b", "y"])))
        (underscoredName "a") = some (PyVal.str "x") :=
  ⟨to_function_input_keyword_catch_all.2 ["z"] "a-b" ["v"] [] (by decide)
      (by intro t ht; cases ht) (Or.inl rfl),
    to_function_input_keyword_catch_all.2 [] "a" ["x"] ["--b", "y"] (by decide)
      (by decide) (Or.inr ⟨"--b", ["y"], rfl, by decide⟩)⟩

/-- C10: in the permissive catch-all pass, when the same `--key` flag occurs
twice, the keyword mapping keeps only the last occurrence's value group;
and leftover tokens that precede every `--key` flag contribute nothing. -/
theorem parse_unknown_args_last_wins_and_skips :
    (∀ (u : List String) (kraw : String) (vs1 vs2 : List String),
      (∀ t ∈ vs1, isDashDash t = false) → (∀ t ∈ vs2, isDashDash t = false) →
      dlookup (parse_unknown_args
          (u ++ ("--" ++ kraw) :: (vs1 ++ ("--" ++ kraw) :: vs2)))
        (underscoredName kraw) = some (groupVal vs2)) ∧
    (∀ (pre toks : List String), (∀ t ∈ pre, isDashDash t = false) →
      parse_unknown_args (pre ++ toks) = parse_unknown_args toks) := by
  constructor
  · intro u kraw vs1 vs2 h1 h2
    have h := puRun_final kraw vs2 h2 (u ++ ("--" ++ kraw) :: vs1) Option.none []
    rw [parse_unknown_args]
    simpa using h
  · intro pre toks hnf
    rw [parse_unknown_args, parse_unknown_args, puRun_skip_prefix pre toks [] hnf]

theorem parse_unknown_args_last_wins_witness :
    dlookup (parse_unknown_args ["--k", "a", "--k", "b", "c"]) "k" =
      some (PyVal.list [PyVal.str "b", PyVal.str "c"]) ∧
    parse_unknown_args (["x", "y"] ++ ["--j"]) = parse_unknown_args ["--j"] :=
  ⟨by
    have h := parse_unknown_args_last_wins_and_skips.1 [] "k" ["a"] ["b", "c"]
      (by decide) (by decide)
    simpa using h,
    parse_unknown_args_last_wins_and_skips.2 ["x", "y"] ["--j"] (by decide)⟩

theorem adLoop_shape :
    ∀ (sig : List Param) (bound extra : List (String × PyVal))
      (pos : List PyVal) (kws : List (String × PyVal)),
      (∀ p ∈ sig, p.kind ≠ ParamKind.kwOnly ∧ p.kind ≠ ParamKind.varKw) →
      adLoop sig bound extra = .ok (pos, kws) →
      kws = [] ∧ ∃ groups : List (List PyVal), pos = groups.flatten ∧
        List.Forall₂ (fun (p : Param) (g : List PyVal) =>
          p.kind ≠ ParamKind.varPos → g.length = 1) sig groups := by
  intro sig
  induction sig with
  | nil =>
    intro bound extra pos kws _ h
    simp only [adLoop, Except.ok.injEq, Prod.mk.injEq] at h
    obtain ⟨h1, h2⟩ := h
    exact ⟨h2.symm, [], h1.symm, List.Forall₂.nil⟩
  | cons p ps ih =>
    intro bound extra pos kws hk h
    have hp := hk p (List.mem_cons_self _ _)
    have hps : ∀ q ∈ ps, q.kind ≠ ParamKind.kwOnly ∧ q.kind ≠ ParamKind.varKw :=
      fun q hq => hk q (List.mem_cons_of_mem _ hq)
    cases hkind : p.kind with
    | kwOnly => exact absurd hkind hp.1
    | varKw => exact absurd hkind hp.2
    | posOnly =>
      simp only [adLoop, hkind] at h
      cases hv : (match dlookup bound p.name with
          | some v => some v
          | Option.none => if isSentinel p.dflt then Option.none else some p.dflt) with
      | none => rw [hv] at h; cases h
      | some v =>
        rw [hv] at h
        cases hrec : adLoop ps bound extra with
        | error e => rw [hrec] at h; cases h
        | ok r =>
          obtain ⟨pos', kws'⟩ := r
          rw [hrec] at h
          simp only [Except.ok.injEq, Prod.mk.injEq] at h
          obtain ⟨h1, h2⟩ := h
          obtain ⟨hkw, groups, hj, hfa⟩ := ih bound extra pos' kws' hps hrec
          refine ⟨h2.symm.trans hkw, [v] :: groups, ?_, ?_⟩
          · rw [← h1, hj]; rfl
          · exact List.Forall₂.cons (fun _ => rfl) hfa
    | posOrKw =>
      simp only [adLoop, hkind] at h
      cases hv : (match dlookup bound p.name with
          | some v => some v
          | Option.none => if isSentinel p.dflt then Option.none else some p.dflt) with
      | none => rw [hv] at h; cases h
      | some v =>
        rw [hv] at h
        cases hrec : adLoop ps bound extra with
        | error e => rw [hrec] at h; cases h
        | ok r =>
          obtain ⟨pos', kws'⟩ := r
          rw [hrec] at h
          simp only [Except.ok.injEq, Prod.mk.injEq] at h
          obtain ⟨h1, h2⟩ := h
          obtain ⟨hkw, groups, hj, hfa⟩ := ih bound extra pos' kws' hps hrec
          refine ⟨h2.symm.trans hkw, [v] :: groups, ?_, ?_⟩
          · rw [← h1, hj]; rfl
          · exact List.Forall₂.cons (fun _ => rfl) hfa
    | varPos =>
      simp only [adLoop, hkind] at h
      cases hrec : adLoop ps bound extra with
      | error e => rw [hrec] at h; cases h
      | ok r =>
        obtain ⟨pos', kws'⟩ := r
        rw [hrec] at h
        simp only [Except.ok.injEq, Prod.mk.injEq] at h
        obtain ⟨h1, h2⟩ := h
        obtain ⟨hkw, groups, hj, hfa⟩ := ih bound extra pos' kws' hps hrec
        refine ⟨h2.symm.trans hkw,
          (match dlookup bound p.name with
            | some (.list ys) => ys
            | _ => []) :: groups, ?_, ?_⟩
        · rw [← h1, hj]; rfl
        · exact List.Forall₂.cons (fun hc => absurd hkind hc) hfa

theorem sigBind_ok_adLoop {sig : List Param} {posArgs : List PyVal}
    {kwArgs : List (String × PyVal)} {r : List PyVal × List (String × PyVal)}
    (h : sigBind sig posArgs kwArgs = .ok r) :
    ∃ bound extra, adLoop sig bound extra = .ok r := by
  rw [sigBind] at h
  cases h1 : bindPositional sig posArgs with
  | error e => rw [h1] at h; cases h
  | ok bound0 =>
    simp only [h1] at h
    cases h2 : bindKeywords sig kwArgs bound0 [] with
    | error e => simp only [h2] at h; cases h
    | ok be =>
      obtain ⟨bound, extra⟩ := be
      simp only [h2] at h
      exact ⟨bound, extra, h⟩

theorem to_function_input_ok_sigBind {sig : List Param} {args : ScriptArgs}
    {r : List PyVal × List (String × PyVal)}
    (h : to_function_input sig args = .ok r) :
    ∃ posArgs kwArgs, sigBind sig posArgs kwArgs = .ok r := by
  rw [to_function_input] at h
  cases h0 : normalize_args args with
  | error e => rw [h0] at h; cases h
  | ok argStrs =>
    simp only [h0] at h
    by_cases hv : (buildActions sig).hasVarKw = true
    · rw [if_pos hv] at h
      cases h1 : parse_known_args (buildActions sig) argStrs with
      | error e => rw [h1] at h; cases h
      | ok nsu =>
        obtain ⟨ns, unknown⟩ := nsu
        simp only [h1] at h
        cases h2 : redistLoop sig [] (dupdate ns (parse_unknown_args unknown)) with
        | error e => rw [h2] at h; cases h
        | ok pk =>
          obtain ⟨posArgs, kwArgs⟩ := pk
          rw [h2] at h
          exact ⟨posArgs, kwArgs, h⟩
    · rw [if_neg hv] at h
      cases h1 : parse_args_strict (buildActions sig) argStrs with
      | error e => rw [h1] at h; cases h
      | ok ns =>
        simp only [h1] at h
        cases h2 : redistLoop sig [] ns with
        | error e => rw [h2] at h; cases h
        | ok pk =>
          obtain ⟨posArgs, kwArgs⟩ := pk
          rw [h2] at h
          exact ⟨posArgs, kwArgs, h⟩

/-- C9: for every signature with no keyword-only parameter and no `**kwargs`,
a successful `to_function_input` returns an empty keyword mapping, and the
positional tuple is the concatenation, in declaration order, of one group per
parameter — a single value (the supplied one or the default) for every
parameter other than `*args`, which contributes its collected elements. -/
theorem to_function_input_positional_signatures :
    ∀ (sig : List Param) (args : ScriptArgs) (pos : List PyVal)
      (kw : List (String × PyVal)),
      (∀ p ∈ sig, p.kind ≠ ParamKind.kwOnly ∧ p.kind ≠ ParamKind.varKw) →
      to_function_input sig args = .ok (pos, kw) →
      kw = [] ∧ ∃ groups : List (List PyVal), pos = groups.flatten ∧
        List.Forall₂ (fun (p : Param) (g : List PyVal) =>
          p.kind ≠ ParamKind.varPos → g.length = 1) sig groups := by
  intro sig args pos kw hk hok
  obtain ⟨posArgs, kwArgs, hsb⟩ := to_function_input_ok_sigBind hok
  obtain ⟨bound, extra, had⟩ := sigBind_ok_adLoop hsb
  exact adLoop_shape sig bound extra pos kw hk had

theorem to_function_input_positional_signatures_witness :
    ([] : List (String × PyVal)) = [] ∧
      ∃ groups : List (List PyVal), [PyVal.int 42, PyVal.bool false] = groups.flatten ∧
        List.Forall₂ (fun (p : Param) (g : List PyVal) =>
          p.kind ≠ ParamKind.varPos → g.length = 1) sigXVerbose groups :=
  to_function_input_positional_signatures sigXVerbose (.ofString "42")
    [PyVal.int 42, PyVal.bool false] [] (by decide) rfl

theorem validate_name_additivity_witness :
    validate_name " " (some "x") = ["Field 'name' must be a non-empty string"] ∧
    "Skill name cannot start or end with a hyphen" ∈ validate_name "-A-" (some "other") ∧
    "Directory name 'other' must match skill name '-A-'" ∈
      validate_name "-A-" (some "other") :=
  ⟨validate_name_additivity_after_nonempty.1 " " (some "x") (by decide),
    (validate_name_additivity_after_nonempty.2 "-A-" (some "other") (by decide)).2.2.1
      (Or.inl (by decide)),
    (validate_name_additivity_after_nonempty.2 "-A-" (some "other")
      (by decide)).2.2.2.2.2 "other" rfl (by decide)⟩

end Adk
